import Mathlib

/-!
Verification development for the fastah FASTA random-access engine.

The definitions below are a shallow embedding of `src/fastah/fasta.py` and
`src/fastah/compression/_bgzf.py`: byte/character offsets are `Int`/`Nat`,
text streams are `List Char`, fallible operations return `Except`.  Python
builtin behaviour (slicing, `rstrip`, `splitlines`, `bisect_left`, stream
reads) is modelled by the `py*` functions, following CPython's documented
semantics.
-/

namespace Fastah

deriving instance DecidableEq for Except

/-! ### Python builtin semantics -/

/-- The characters Python's `str.rstrip()` strips by default (whitespace).
Exotic Unicode spaces above U+00FF cannot occur in the byte-oriented inputs
modelled here and are omitted. -/
def pyIsSpace (c : Char) : Bool :=
  c == ' ' || c == '\t' || c == '\n' || c == '\x0b' || c == '\x0c' || c == '\r' ||
  c == '\x1c' || c == '\x1d' || c == '\x1e' || c == '\x1f' || c == '\x85' || c == '\xa0'

/-- The line-boundary characters of Python's `str.splitlines()`. -/
def pyIsLineBreak (c : Char) : Bool :=
  c == '\n' || c == '\r' || c == '\x0b' || c == '\x0c' ||
  c == '\x1c' || c == '\x1d' || c == '\x1e' || c == '\x85' ||
  c == '\u2028' || c == '\u2029'

/-- Python `s.rstrip()`. -/
def pyRstrip (l : List Char) : List Char :=
  (l.reverse.dropWhile pyIsSpace).reverse

/-- Python `s.startswith(">")`. -/
def startsWithGt : List Char → Bool
  | [] => false
  | c :: _ => c == '>'

/-- `"".join(s.splitlines())`: removes exactly the line-boundary characters. -/
def joinSplitlines (l : List Char) : List Char :=
  l.filter (fun c => !pyIsLineBreak c)

/-- `"".join(s.split("\n"))`: removes exactly the newline characters. -/
def joinSplitNewline (l : List Char) : List Char :=
  l.filter (fun c => c != '\n')

/-- CPython `PySlice_AdjustIndices` applied to one bound (start and stop are
adjusted identically): add the length to a negative bound, then clamp, with
the clamp targets depending on the sign of the step. -/
def pyAdjustIndex (n : Nat) (step s : Int) : Int :=
  if s < 0 then
    (if s + n < 0 then (if step < 0 then -1 else 0) else s + n)
  else
    (if (n : Int) ≤ s then (if step < 0 then (n : Int) - 1 else n) else s)

/-- The adjusted start bound of a Python slice (default depends on the step sign). -/
def pySliceAdjustStart (n : Nat) (start? : Option Int) (step : Int) : Int :=
  match start? with
  | none => if step < 0 then (n : Int) - 1 else 0
  | some s => pyAdjustIndex n step s

/-- The adjusted stop bound of a Python slice (default depends on the step sign). -/
def pySliceAdjustStop (n : Nat) (stop? : Option Int) (step : Int) : Int :=
  match stop? with
  | none => if step < 0 then -1 else (n : Int)
  | some s => pyAdjustIndex n step s

/-- The number of elements of a Python slice with adjusted bounds
(CPython's slice length formula); only meaningful for `step ≠ 0`. -/
def pySliceLen (start stop step : Int) : Nat :=
  if 0 < step then
    (if start < stop then (stop - start - 1).toNat / step.toNat + 1 else 0)
  else
    (if stop < start then (start - stop - 1).toNat / (-step).toNat + 1 else 0)

/-- Python slicing `l[start:stop:step]` for `step ≠ 0` (Python raises on a
zero step; callers model that separately). -/
def pySlice [Inhabited α] (l : List α) (start? stop? : Option Int) (step : Int) : List α :=
  let start := pySliceAdjustStart l.length start? step
  let stop := pySliceAdjustStop l.length stop? step
  (List.range (pySliceLen start stop step)).map
    (fun (k : Nat) => l.getD (start + (k : Int) * step).toNat default)

/-- Model of `stream.seek(pos)` followed by `stream.read(n)` on a text
stream: a negative `n` reads to EOF, reads past EOF truncate. -/
def pyRead (data : List Char) (pos : Nat) (n : Int) : List Char :=
  if n < 0 then data.drop pos else (data.drop pos).take n.toNat

/-- Python `l[i]` with negative-index wrap-around; `none` models `IndexError`. -/
def pyIndex (l : List α) (i : Int) : Option α :=
  if 0 ≤ i then l.get? i.toNat
  else if 0 ≤ i + l.length then l.get? (i + l.length).toNat
  else none

/-! ### Data model: FAI entries -/

/-- `FaiEntry` from `fasta.py` (fields as parsed by `int(...)`, hence `Int`). -/
structure FaiEntry where
  name : String
  length : Int
  offset : Int
  linebases : Int
  linewidth : Int
  qualoffset : Option Int := none
deriving DecidableEq

/-- `FASTAFile._base_to_byte_offset`, with Python's floor division and modulo. -/
def base_to_byte_offset (base_offset bases_per_line bytes_per_line : Int) : Int :=
  (base_offset.fdiv bases_per_line) * bytes_per_line + base_offset.fmod bases_per_line

/-- `OrderedDict` lookup `self._index[seqid]` over an entry list with unique
names (built by `dictInsert`, which updates in place). -/
def lookupEntry (idx : List FaiEntry) (seqid : String) : Option FaiEntry :=
  idx.find? (fun e => e.name == seqid)

/-! ### The fetch engine (`FASTAFile._fetch`), uncompressed storage -/

/-- The Python exceptions the modelled operations can raise. -/
inductive FetchErr where
  /-- ValueError: cannot fetch from a closed FASTA file -/
  | closedValue
  /-- RuntimeError: random access requires an index -/
  | noIndex
  /-- RuntimeError: compressed random access requires a compressed index -/
  | noCompressedIndex
  /-- KeyError: seqid not in the index mapping -/
  | keyError
  /-- UnboundLocalError: `step == 0` leaves start/stop unassigned -/
  | unboundLocal
  /-- ZeroDivisionError from `base_to_byte_offset` with `linebases == 0` -/
  | zeroDivision
  /-- ValueError from `stream.seek(negative)` -/
  | negativeSeek
  /-- ValueError from `sequence[::0]` -/
  | zeroStep
  /-- ValueError from `bisect_left(..., lo < 0, ...)` -/
  | bisectLoNegative
  /-- IndexError indexing the GZI entry tuple -/
  | indexOutOfRange
  /-- decompression failure (malformed gzip stream) -/
  | gzipError
  /-- IndexError: FASTA sequence index out of range (record integer indexing) -/
  | seqIndexOutOfRange
  /-- ValueError: first line of a FASTA file must start with the header marker -/
  | notFasta
  /-- NameError: a data line before any header leaves the record state unassigned -/
  | nameUnbound
  /-- RuntimeError: blank line in the middle of the FASTA file -/
  | blankLineMidFile
  /-- RuntimeError: unequal numbers of bases in lines of a record -/
  | unequalLineBases
  /-- RuntimeError: lines with unequal terminator widths in a record -/
  | inconsistentTerminators
  /-- RuntimeError: unequal line widths in a record -/
  | unequalLineWidths
deriving DecidableEq

/-- Outcome of the start/stop normalisation phase of `_fetch`. -/
inductive Resolved where
  /-- one of the early `return ""` cases -/
  | empty
  /-- read the base interval `[lo, hi)`, then apply the step -/
  | range (lo hi : Int)
deriving DecidableEq

/-- Lines 564–603 of `fasta.py`: default the bounds from the step sign,
convert negative bounds, clamp to `[-1, L]`, return early for empty
combinations, and swap `(start, stop) := (stop+1, start+1)` for a reversed
range.  `step = 0` with an absent bound raises `UnboundLocalError`. -/
def resolveRange (L : Int) (start? stop? : Option Int) (step : Int) :
    Except FetchErr Resolved :=
  let norm : Int → Int := fun s => max (-1) (min (if s < 0 then L + s else s) L)
  match (match start? with
         | none =>
           if step > 0 then Except.ok 0
           else if step < 0 then Except.ok L
           else Except.error FetchErr.unboundLocal
         | some s => Except.ok (norm s)) with
  | Except.error e => Except.error e
  | Except.ok start =>
    match (match stop? with
           | none =>
             if step > 0 then Except.ok L
             else if step < 0 then Except.ok (-1)
             else Except.error FetchErr.unboundLocal
           | some s => Except.ok (norm s)) with
    | Except.error e => Except.error e
    | Except.ok stop =>
      if start = stop then Except.ok Resolved.empty
      else if step > 0 ∧ start > stop then Except.ok Resolved.empty
      else if step < 0 ∧ start < stop then Except.ok Resolved.empty
      else if start > stop then Except.ok (Resolved.range (stop + 1) (start + 1))
      else Except.ok (Resolved.range start stop)

/-- `sequence[::step]`; Python raises `ValueError` on a zero step. -/
def pyStepSliceE (l : List Char) (step : Int) : Except FetchErr (List Char) :=
  if step = 0 then Except.error FetchErr.zeroStep
  else Except.ok (pySlice l none none step)

/-- Lines 605–616 of `fasta.py` (uncompressed storage): map the base interval
to byte offsets, seek, read, and strip line terminators with
`"".join(... .splitlines())`. -/
def readRegion (data : List Char) (e : FaiEntry) (lo hi : Int) :
    Except FetchErr (List Char) :=
  if e.linebases = 0 then Except.error FetchErr.zeroDivision
  else
    let offsetStart := base_to_byte_offset lo e.linebases e.linewidth
    let offsetStop := base_to_byte_offset hi e.linebases e.linewidth
    let bytesToRead := offsetStop - offsetStart
    let seekPos := offsetStart + e.offset
    if seekPos < 0 then Except.error FetchErr.negativeSeek
    else Except.ok (joinSplitlines (pyRead data seekPos.toNat bytesToRead))

/-- A `FASTAFile` over an uncompressed backing stream (`Compression.NONE`):
the stream contents, the parsed FAI (if any), and the closed flag. -/
structure FASTAFilePlain where
  data : List Char
  index : Option (List FaiEntry)
  closed : Bool
deriving DecidableEq

/-- The tail of `_fetch` after the entry lookup (uncompressed storage):
bound normalisation, region read, final `sequence[::step]`. -/
def fetchTail (data : List Char) (e : FaiEntry) (start? stop? : Option Int)
    (step : Int) : Except FetchErr (List Char) :=
  match resolveRange e.length start? stop? step with
  | Except.error err => Except.error err
  | Except.ok Resolved.empty => Except.ok []
  | Except.ok (Resolved.range lo hi) =>
    match readRegion data e lo hi with
    | Except.error err => Except.error err
    | Except.ok sequence => pyStepSliceE sequence step

/-- `FASTAFile._fetch` for uncompressed storage: closed check, index lookup,
then `fetchTail` with the defaulted step. -/
def FASTAFilePlain.fetch (f : FASTAFilePlain) (seqid : String)
    (start? stop? step? : Option Int) : Except FetchErr (List Char) :=
  if f.closed then Except.error FetchErr.closedValue
  else match f.index with
  | none => Except.error FetchErr.noIndex
  | some idx =>
    match lookupEntry idx seqid with
    | none => Except.error FetchErr.keyError
    | some e => fetchTail f.data e start? stop? (step?.getD 1)

/-- `FASTARecord.__getitem__` with an integer key on a lazy record: bounds
check against the FAI length, then `_fetch(start=i, stop=i+1, step=None)`. -/
def recordGetIntLazy (f : FASTAFilePlain) (seqid : String) (i : Int) :
    Except FetchErr (List Char) :=
  match f.index with
  | none => Except.error FetchErr.noIndex
  | some idx =>
    match lookupEntry idx seqid with
    | none => Except.error FetchErr.keyError
    | some e =>
      if e.length ≤ i ∨ i < -e.length then Except.error FetchErr.seqIndexOutOfRange
      else f.fetch seqid (some i) (some (i + 1)) none

/-- `FASTARecord.__getitem__` with an integer key on a materialized record:
bounds check against `len(sequence)`, then the Python slice `s[i : i+1]`. -/
def recordGetIntMaterialized (s : List Char) (i : Int) :
    Except FetchErr (List Char) :=
  if (s.length : Int) ≤ i ∨ i < -(s.length : Int) then
    Except.error FetchErr.seqIndexOutOfRange
  else Except.ok (pySlice s (some i) (some (i + 1)) 1)

/-! ### readline and line splitting -/

/-- Helper for `linesOf`: accumulate the current (reversed) line. -/
def linesOfGo : List Char → List Char → List (List Char)
  | [], acc => if acc = [] then [] else [acc.reverse]
  | c :: rest, acc =>
    if c = '\n' then (c :: acc).reverse :: linesOfGo rest []
    else linesOfGo rest (c :: acc)

/-- Split a text stream into the lines successive `readline` calls return:
each line keeps its trailing newline; the final line may lack one. -/
def linesOf (data : List Char) : List (List Char) := linesOfGo data []

/-- `stream.read(n)` where `n` may be `None` (read to EOF). -/
def pyReadOpt (data : List Char) (pos : Nat) : Option Int → List Char
  | none => data.drop pos
  | some n => pyRead data pos n

/-! ### The FAI builder (`fastah.fasta.index`) -/

/-- The per-record state of the FAI builder's scan loop. -/
structure RecState where
  seqid : List Char
  seq_len : Nat
  seq_offset : Nat
  seq_linebases : Option Nat
  seq_linewidth : Option Nat
  encountered_unequal_linebases_before : Bool
  encountered_unequal_linewidths_before : Bool
deriving DecidableEq

/-- Python's rendering of an optional number inside the output f-string
(`None` prints as the text `None`). -/
def optNatToChars : Option Nat → List Char
  | none => ("None").toList
  | some n => (toString n).toList

/-- The FAI line the builder writes for one finished record:
`f"{seqid}\t{seq_len}\t{seq_offset}\t{seq_linebases}\t{seq_linewidth}\n"`. -/
def formatFaiLine (st : RecState) : List Char :=
  st.seqid ++ '\t' :: (toString st.seq_len).toList
    ++ '\t' :: (toString st.seq_offset).toList
    ++ '\t' :: optNatToChars st.seq_linebases
    ++ '\t' :: optNatToChars st.seq_linewidth ++ ['\n']

/-- Lines 174–198 of `fasta.py`: the linebases/linewidth discipline applied
to one data line.  A linebases deviation is tolerated once; a linewidth
deviation is checked only when the total width differs, errors immediately
when the terminator width changed, and is otherwise tolerated once. -/
def processDataLine (st : RecState) (line rstripped : List Char) :
    Except FetchErr RecState :=
  let checkLB : Except FetchErr (Nat × Bool) :=
    match st.seq_linebases with
    | none => Except.ok (rstripped.length, st.encountered_unequal_linebases_before)
    | some lb =>
      if rstripped.length ≠ lb then
        (if st.encountered_unequal_linebases_before then
          Except.error FetchErr.unequalLineBases
         else Except.ok (lb, true))
      else Except.ok (lb, st.encountered_unequal_linebases_before)
  match checkLB with
  | Except.error e => Except.error e
  | Except.ok (lb, flagLB) =>
    let checkLW : Except FetchErr (Nat × Bool) :=
      match st.seq_linewidth with
      | none => Except.ok (line.length, st.encountered_unequal_linewidths_before)
      | some lw =>
        if line.length ≠ lw then
          let terminator_width := line.length - rstripped.length
          if terminator_width ≠ lw - lb then
            Except.error FetchErr.inconsistentTerminators
          else if st.encountered_unequal_linewidths_before then
            Except.error FetchErr.unequalLineWidths
          else Except.ok (lw, true)
        else Except.ok (lw, st.encountered_unequal_linewidths_before)
    match checkLW with
    | Except.error e => Except.error e
    | Except.ok (lw, flagLW) =>
      Except.ok { st with
        seq_len := st.seq_len + rstripped.length,
        seq_linebases := some lb,
        seq_linewidth := some lw,
        encountered_unequal_linebases_before := flagLB,
        encountered_unequal_linewidths_before := flagLW }

/-- The main loop of the FAI builder `fastah.fasta.index` (lines 143–206):
`offset` is the bytes consumed so far, `cur` the record in progress (Python
leaves the record variables unbound before the first header), `blankBefore`
the blank-line flag.  Output lines are emitted in write order. -/
def faiIndexGo : List (List Char) → Nat → Option RecState → Bool →
    Except FetchErr (List (List Char))
  | [], _, cur, _ =>
    (match cur with
     | none => Except.ok []
     | some st => Except.ok [formatFaiLine st])
  | line :: rest, offset, cur, blankBefore =>
    let offset := offset + line.length
    let rstripped := pyRstrip line
    if blankBefore then Except.error FetchErr.blankLineMidFile
    else if rstripped = [] then faiIndexGo rest offset cur true
    else if startsWithGt line then
      let flushed : List (List Char) :=
        match cur with
        | none => []
        | some st => [formatFaiLine st]
      let seqid := (((pyRstrip line).splitOn ' ').headD []).drop 1
      match faiIndexGo rest offset
          (some ⟨seqid, 0, offset, none, none, false, false⟩) false with
      | Except.error e => Except.error e
      | Except.ok out => Except.ok (flushed ++ out)
    else
      match cur with
      | none => Except.error FetchErr.nameUnbound
      | some st =>
        match processDataLine st line rstripped with
        | Except.error e => Except.error e
        | Except.ok st2 => faiIndexGo rest offset (some st2) blankBefore

/-- The FAI builder `fastah.fasta.index` on a text source, returning the
FAI lines it writes to the destination. -/
def faiBuild (data : List Char) : Except FetchErr (List (List Char)) :=
  faiIndexGo (linesOf data) 0 none false

/-! ### The FAI parser (`FASTAFile._parse_index`) -/

/-- Digit-string accumulator for `pyInt`. -/
def digitsToNatGo : List Char → Nat → Option Nat
  | [], acc => some acc
  | c :: rest, acc =>
    if c.isDigit then digitsToNatGo rest (acc * 10 + (c.toNat - 48)) else none

/-- Python `int(s)` on a text field: optional surrounding whitespace, an
optional sign, then decimal digits (digit-group underscores are not used by
any input modelled here). -/
def pyInt (s : List Char) : Option Int :=
  let t := (pyRstrip s).dropWhile pyIsSpace
  match t with
  | '-' :: ds => if ds = [] then none else (digitsToNatGo ds 0).map (fun n => -(n : Int))
  | '+' :: ds => if ds = [] then none else (digitsToNatGo ds 0).map (fun n => (n : Int))
  | ds => if ds = [] then none else (digitsToNatGo ds 0).map (fun n => (n : Int))

/-- One line of `FASTAFile._parse_index`: rstrip, split on tabs, convert the
numeric fields; `none` models the `IndexError`/`ValueError` a malformed line
raises. -/
def parseFaiLine (line : List Char) : Option FaiEntry :=
  let fields := (pyRstrip line).splitOn '\t'
  match fields with
  | f0 :: f1 :: f2 :: f3 :: f4 :: _ =>
    (match pyInt f1, pyInt f2, pyInt f3, pyInt f4 with
     | some len, some off, some lb, some lw =>
       some { name := String.mk f0, length := len, offset := off,
              linebases := lb, linewidth := lw }
     | _, _, _, _ => none)
  | _ => none

/-- `OrderedDict` assignment `self._index[name] = entry`: replace an existing
entry for the key in place, else append. -/
def dictInsert : List FaiEntry → FaiEntry → List FaiEntry
  | [], v => [v]
  | e :: m, v => if e.name = v.name then v :: m else e :: dictInsert m v

/-- The loop of `FASTAFile._parse_index` over the FAI lines. -/
def parseFaiGo : List (List Char) → List FaiEntry → Option (List FaiEntry)
  | [], acc => some acc
  | line :: rest, acc =>
    match parseFaiLine line with
    | none => none
    | some e => parseFaiGo rest (dictInsert acc e)

/-- `FASTAFile._parse_index`: fold the FAI lines into the ordered mapping. -/
def parseFai (lines : List (List Char)) : Option (List FaiEntry) :=
  parseFaiGo lines []

/-! ### Iteration (`_iter_indexed`, `_iter_unindexed`) -/

/-- `FASTAFile._iter_indexed`, lines 383–421, as the `(seqid, sequence)`
pairs it yields: for each entry, compute the byte span of the whole record
from the previous entry's geometry (`prev`), read it, split on newlines, and
re-parse the header from the read bytes. -/
def iterIndexedGo (data : List Char) :
    Option FaiEntry → List FaiEntry → Except FetchErr (List (List Char × List Char))
  | _, [] => Except.ok []
  | prev, e :: rest =>
    match (match prev with
           | none => Except.ok (0 : Int)
           | some p =>
             if p.linebases = 0 then Except.error FetchErr.zeroDivision
             else Except.ok (p.offset + p.linewidth * (p.length.fdiv p.linebases)
               + p.length.fmod p.linebases + (p.linewidth - p.linebases))) with
    | Except.error err => Except.error err
    | Except.ok start =>
      match (if rest = [] then Except.ok (none : Option Int)
             else if e.linebases = 0 then Except.error FetchErr.zeroDivision
             else Except.ok (some ((e.offset - start)
               + e.linewidth * (e.length.fdiv e.linebases)
               + e.length.fmod e.linebases))) with
      | Except.error err => Except.error err
      | Except.ok bytesToRead =>
        if start < 0 then Except.error FetchErr.negativeSeek
        else
          let record := pyReadOpt data start.toNat bytesToRead
          let lines := record.splitOn '\n'
          let fields := (lines.headD []).splitOn ' '
          let seqid := (fields.headD []).drop 1
          let sequence := (lines.drop 1).flatten
          match iterIndexedGo data (some e) rest with
          | Except.error err => Except.error err
          | Except.ok out => Except.ok ((seqid, sequence) :: out)

/-- `FASTAFile._iter_indexed` over the whole index. -/
def iterIndexed (data : List Char) (entries : List FaiEntry) :
    Except FetchErr (List (List Char × List Char)) :=
  iterIndexedGo data none entries

/-- One record of `FASTAFile._iter_unindexed`: parse the header line, gather
the rstripped data lines up to the next header.  Fuelled to keep the
recursion structural; the fuel is the number of remaining lines. -/
def iterUnindexedGo : Nat → List (List Char) → List (List Char × List Char)
  | 0, _ => []
  | _, [] => []
  | fuel + 1, line :: rest =>
    let seqid := ((((pyRstrip line).drop 1).splitOn ' ').headD [])
    let body := rest.takeWhile (fun l => !startsWithGt l)
    let sequence := (body.map pyRstrip).flatten
    (seqid, sequence) ::
      iterUnindexedGo fuel (rest.dropWhile (fun l => !startsWithGt l))

/-- `FASTAFile._iter_unindexed`, lines 423–450, as the `(seqid, sequence)`
pairs it yields; the first line must be a header. -/
def iterUnindexed (data : List Char) :
    Except FetchErr (List (List Char × List Char)) :=
  match linesOf data with
  | [] => Except.error FetchErr.notFasta
  | line :: rest =>
    if !startsWithGt line then Except.error FetchErr.notFasta
    else Except.ok (iterUnindexedGo (rest.length + 1) (line :: rest))

/-! ### `__getitem__`, `__contains__`, `close` -/

/-- The lazy record handle `FASTARecord._from_FASTA_file` produces. -/
inductive RecordHandle where
  | lazy (seqid : String)
deriving DecidableEq

/-- `FASTAFile.__getitem__` with a string key on an uncompressed file
(`Compression.NONE`, so the plain-gzip refusal does not trigger): requires
an index, checks membership, and returns a lazy record without touching the
backing stream. -/
def FASTAFilePlain.getRecord (f : FASTAFilePlain) (key : String) :
    Except FetchErr RecordHandle :=
  match f.index with
  | none => Except.error FetchErr.noIndex
  | some idx =>
    if (lookupEntry idx key).isSome then Except.ok (RecordHandle.lazy key)
    else Except.error FetchErr.keyError

/-- `FASTAFile.__contains__`: requires an index, then a dictionary
membership test; it never touches the backing stream. -/
def FASTAFilePlain.containsSeqid (f : FASTAFilePlain) (key : String) :
    Except FetchErr Bool :=
  match f.index with
  | none => Except.error FetchErr.noIndex
  | some idx => Except.ok (lookupEntry idx key).isSome

/-! ### BGZF blocks, GZI index, and the compressed fetch path -/

/-- One BGZF block of a compressed file: the number of bytes it occupies on
disk (`BSIZE + 1`; opaque zlib output — no fetch result depends on the
value) and the payload it decompresses to (`ISIZE` bytes). -/
structure BGZFBlock where
  csize : Nat
  payload : List Char
deriving DecidableEq

/-- An abstract compressed byte: block number and offset within the block.
This keeps the zlib byte stream opaque while preserving exact lengths and
block boundaries. -/
abbrev CByte := Nat × Nat

/-- The on-disk bytes of block number `i`. -/
def blockBytes (i : Nat) (b : BGZFBlock) : List CByte :=
  (List.range b.csize).map (fun j => (i, j))

/-- The whole compressed file as a byte list. -/
def fileBytes (blocks : List BGZFBlock) : List CByte :=
  (blocks.enum.map (fun p => blockBytes p.1 p.2)).flatten

/-- Helper for `decompressBytes`; the fuel bounds the byte count. -/
def decompressGo (blocks : List BGZFBlock) : Nat → List CByte → Option (List Char)
  | _, [] => some []
  | 0, _ :: _ => none
  | fuel + 1, (i, j) :: rest =>
    if j ≠ 0 then none
    else match blocks.get? i with
      | none => none
      | some b =>
        if b.csize ≠ 0 ∧ ((i, j) :: rest).take b.csize = blockBytes i b then
          (match decompressGo blocks fuel (((i, j) :: rest).drop b.csize) with
           | none => none
           | some tail => some (b.payload ++ tail))
        else none

/-- `gzip.decompress` applied to bytes cut from the compressed file: it
succeeds exactly on a non-empty concatenation of complete gzip members
(= BGZF blocks), yielding the concatenation of their payloads; an empty or
misaligned input is a gzip error. -/
def decompressBytes (blocks : List BGZFBlock) (bs : List CByte) : Option (List Char) :=
  match bs with
  | [] => none
  | _ => decompressGo blocks bs.length bs

/-- The `(compressed_offset, uncompressed_offset)` pair at the start of each
block, in file order: what the walk in `_bgzf.index` records (it reads each
header's `BSIZE` to skip and each trailer's `ISIZE` to accumulate). -/
def blockOffsets : List BGZFBlock → Nat → Nat → List (Nat × Nat)
  | [], _, _ => []
  | b :: rest, comp, uncomp =>
    (comp, uncomp) :: blockOffsets rest (comp + b.csize) (uncomp + b.payload.length)

/-- `_bgzf.index`: every block boundary, minus the first entry (the
redundant `(0, 0)`) and the last (the EOF marker block). -/
def bgzfIndexEntries (blocks : List BGZFBlock) : List (Nat × Nat) :=
  ((blockOffsets blocks 0 0).drop 1).dropLast

/-- `FASTAFile._parse_index_compressed` applied to the GZI `_bgzf.index`
wrote: the stored pairs with the implicit leading `(0, 0)` prepended. -/
def parseGzi (entries : List (Nat × Nat)) : List (Nat × Nat) :=
  (0, 0) :: entries

/-- The loop of Python `bisect_left(a, x, lo, hi, key)`; the fuel bounds
`hi - lo`. -/
def bisectGo (key : List Nat) (x : Int) : Nat → Nat → Nat → Nat
  | 0, lo, _ => lo
  | fuel + 1, lo, hi =>
    if lo < hi then
      let mid := (lo + hi) / 2
      if ((key.getD mid 0 : Nat) : Int) < x then bisectGo key x fuel (mid + 1) hi
      else bisectGo key x fuel lo mid
    else lo

/-- Python `bisect_left` on the uncompressed offsets of the GZI with the
`lo` bound `_fetch` passes; a negative `lo` raises `ValueError`. -/
def bisectLeft (key : List Nat) (x : Int) (lo : Int) (hi : Nat) :
    Except FetchErr Nat :=
  if lo < 0 then Except.error FetchErr.bisectLoNegative
  else Except.ok (bisectGo key x (hi - lo.toNat) lo.toNat hi)

/-- The linear scan for the stop block (lines 633–638 of `fasta.py`):
advance while in range and the entry's uncompressed offset is below
`offset_start + bytes_to_read`. -/
def scanStopGo (key : List Nat) (target : Int) : Nat → Nat → Nat
  | 0, j => j
  | fuel + 1, j =>
    if j < key.length ∧ ((key.getD j 0 : Nat) : Int) < target then
      scanStopGo key target fuel (j + 1)
    else j

/-- The stop-block scan starting from `block_start + 1`. -/
def scanStop (key : List Nat) (target : Int) (j : Nat) : Nat :=
  scanStopGo key target (key.length - j) j

/-- The read requests of the loop in lines 644–653: for each block index,
the number of compressed bytes to read (`none` reads the rest of the file);
GZI entries are accessed with Python list indexing. -/
def readRequests (gzi : List (Nat × Nat)) : List Int → Except FetchErr (List (Option Int))
  | [] => Except.ok []
  | i :: rest =>
    match (if i + 1 < (gzi.length : Int) then
             match pyIndex gzi (i + 1), pyIndex gzi i with
             | some nxt, some cur => Except.ok (some ((nxt.1 : Int) - (cur.1 : Int)))
             | _, _ => Except.error FetchErr.indexOutOfRange
           else Except.ok (none : Option Int)) with
    | Except.error e => Except.error e
    | Except.ok req =>
      match readRequests gzi rest with
      | Except.error e => Except.error e
      | Except.ok out => Except.ok (req :: out)

/-- Sequential `stream.read` calls on the compressed file from position
`pos`: `some n` reads `n` bytes (negative reads the rest), `none` reads the
rest of the file. -/
def doReads (file : List CByte) : Nat → List (Option Int) → List CByte
  | _, [] => []
  | pos, some n :: rest =>
    if n < 0 then file.drop pos
    else
      let chunk := (file.drop pos).take n.toNat
      chunk ++ doReads file (pos + chunk.length) rest
  | pos, none :: rest => file.drop pos ++ doReads file file.length rest

/-- A `FASTAFile` over a BGZF-compressed backing stream: the blocks of the
compressed file, the parsed FAI, the parsed GZI (with its leading `(0,0)`),
and the closed flag. -/
structure FASTAFileBGZF where
  blocks : List BGZFBlock
  index : Option (List FaiEntry)
  gzi : Option (List (Nat × Nat))
  closed : Bool
deriving DecidableEq

/-- The compressed read of `_fetch` (lines 617–667) for one byte interval:
the GZI binary search with the BGZF `min_start` lower bound, the stop-block
scan, the block reads, gzip decompression, the uncompressed slice, and
`"".join(....split("\n"))`. -/
def bgzfReadRegion (blocks : List BGZFBlock) (gzi : List (Nat × Nat))
    (e : FaiEntry) (lo hi : Int) : Except FetchErr (List Char) :=
  if e.linebases = 0 then Except.error FetchErr.zeroDivision
  else
    let offsetStart0 := base_to_byte_offset lo e.linebases e.linewidth
    let offsetStop := base_to_byte_offset hi e.linebases e.linewidth
    let bytesToRead := offsetStop - offsetStart0
    let offsetStart := offsetStart0 + e.offset
    let uncompKey := gzi.map (fun p => p.2)
    let minStart : Int := offsetStart.fdiv 65536
    match bisectLeft uncompKey offsetStart minStart gzi.length with
    | Except.error err => Except.error err
    | Except.ok r =>
      let blockStart : Int := (r : Int) - 1
      let blockStop : Nat := scanStop uncompKey (offsetStart + bytesToRead) r
      match pyIndex gzi blockStart with
      | none => Except.error FetchErr.indexOutOfRange
      | some startEntry =>
        let indices := (List.range ((blockStop : Int) - blockStart).toNat).map
          (fun (k : Nat) => blockStart + (k : Int))
        match readRequests gzi indices with
        | Except.error err => Except.error err
        | Except.ok reqs =>
          let compressedBytes := doReads (fileBytes blocks) startEntry.1 reqs
          match decompressBytes blocks compressedBytes with
          | none => Except.error FetchErr.gzipError
          | some uncompressed =>
            let uos : Int := offsetStart - startEntry.2
            Except.ok (joinSplitNewline
              (pySlice uncompressed (some uos) (some (uos + bytesToRead)) 1))

/-- The tail of `_fetch` after the lookups (BGZF storage): shared bound
normalisation, compressed region read, shared final `sequence[::step]`. -/
def bgzfFetchTail (blocks : List BGZFBlock) (gzi : List (Nat × Nat))
    (e : FaiEntry) (start? stop? : Option Int) (step : Int) :
    Except FetchErr (List Char) :=
  match resolveRange e.length start? stop? step with
  | Except.error err => Except.error err
  | Except.ok Resolved.empty => Except.ok []
  | Except.ok (Resolved.range lo hi) =>
    match bgzfReadRegion blocks gzi e lo hi with
    | Except.error err => Except.error err
    | Except.ok sequence => pyStepSliceE sequence step

/-- `FASTAFile._fetch` for BGZF storage (lines 542–669): closed check,
index lookup, GZI presence check, then `bgzfFetchTail`. -/
def FASTAFileBGZF.fetch (f : FASTAFileBGZF) (seqid : String)
    (start? stop? step? : Option Int) : Except FetchErr (List Char) :=
  if f.closed then Except.error FetchErr.closedValue
  else match f.index with
  | none => Except.error FetchErr.noIndex
  | some idx =>
    match lookupEntry idx seqid with
    | none => Except.error FetchErr.keyError
    | some e =>
      match f.gzi with
      | none => Except.error FetchErr.noCompressedIndex
      | some gzi => bgzfFetchTail f.blocks gzi e start? stop? (step?.getD 1)

/-! ### The BGZF compressor (`_bgzf.compress`) -/

/-- Python `block.rfind(b"\n")` as an optional index. -/
def rfindNewline (l : List Char) : Option Nat :=
  match l.reverse.findIdx? (fun c => c = '\n') with
  | none => none
  | some k => some (l.length - 1 - k)

/-- The block-splitting loop of `_bgzf.compress`: blocks of at most
`UNCOMPRESSED_BLOCK_DATA_BOUND_IN_BYTES = 65485` bytes, split after the last
newline of the candidate block when one exists, the remainder carried into
the next block.  `remBound` tracks whether the Python `remainder` variable
has been assigned (it is unbound if the very first block has no newline).
The fuel bounds the remaining input length. -/
def bgzfSplitGo : Nat → List Char → List Char → Bool → Except FetchErr (List (List Char))
  | _, [], _, _ => Except.ok []
  | 0, _ :: _, _, _ => Except.ok []
  | fuel + 1, block, source, remBound =>
    match rfindNewline block with
    | some idx =>
      let blk := block.take (idx + 1)
      let rem := block.drop (idx + 1)
      (match bgzfSplitGo fuel (rem ++ source.take (65485 - rem.length))
          (source.drop (65485 - rem.length)) true with
       | Except.error e => Except.error e
       | Except.ok out => Except.ok (blk :: out))
    | none =>
      if remBound then
        (match bgzfSplitGo fuel (source.take 65485) (source.drop 65485) true with
         | Except.error e => Except.error e
         | Except.ok out => Except.ok (block :: out))
      else Except.error FetchErr.nameUnbound

/-- The block payloads `_bgzf.compress` writes for input `X` (excluding the
trailing empty EOF marker block). -/
def bgzfSplit (X : List Char) : Except FetchErr (List (List Char)) :=
  bgzfSplitGo (X.length + 1) (X.take 65485) (X.drop 65485) false

/-- A definite stand-in for the on-disk size of one compressed block (the
real value is zlib output; no fetch result depends on it, only on block
boundaries being consistent between the file and the GZI). -/
def csizeModel (payload : List Char) : Nat := payload.length + 26

/-- The compressed file `_bgzf.compress` writes for `X`: the split payload
blocks followed by the empty EOF marker block. -/
def bgzfCompress (X : List Char) : Except FetchErr (List BGZFBlock) :=
  match bgzfSplit X with
  | Except.error e => Except.error e
  | Except.ok payloads =>
    Except.ok (payloads.map (fun p => BGZFBlock.mk (csizeModel p) p)
      ++ [BGZFBlock.mk (csizeModel []) []])

/-- The `FASTAFile` of claim C2: BGZF-compress `X`, build the GZI from the
compressed file with `_bgzf.index`, parse it, attach the given FAI. -/
def mkBGZFFile (X : List Char) (idx : Option (List FaiEntry)) :
    Except FetchErr FASTAFileBGZF :=
  match bgzfCompress X with
  | Except.error e => Except.error e
  | Except.ok blocks =>
    Except.ok (FASTAFileBGZF.mk blocks idx
      (some (parseGzi (bgzfIndexEntries blocks))) false)

/-! ### Block-list measures used to state the compressed-access lemmas -/

/-- Total on-disk size of a list of blocks. -/
def sumCsize (bs : List BGZFBlock) : Nat := (bs.map (fun b => b.csize)).sum

/-- Total decompressed size of a list of blocks. -/
def sumPayload (bs : List BGZFBlock) : Nat :=
  (bs.map (fun b => b.payload.length)).sum

/-- Concatenated payloads of a list of blocks. -/
def concatPayload (bs : List BGZFBlock) : List Char :=
  (bs.map (fun b => b.payload)).flatten

/-- The on-disk size recorded for block number `i` (zero past the end). -/
def csizeAt (blocks : List BGZFBlock) (i : Nat) : Nat :=
  ((blocks.get? i).map (fun b => b.csize)).getD 0

/-- The compressed bytes of blocks `i, i+1, …, i+k-1`, read off the block
list itself; equal to the corresponding segment of `fileBytes`. -/
def segTokens (blocks : List BGZFBlock) : Nat → Nat → List CByte
  | _, 0 => []
  | i, k + 1 =>
    (match blocks.get? i with
     | none => []
     | some b => blockBytes i b) ++ segTokens blocks (i + 1) k

/-- The value `readRequests` produces for the index window starting at
block `i` of width `k`, over a GZI with `n` entries. -/
def expectedReqs (blocks : List BGZFBlock) (n : Nat) : Nat → Nat → List (Option Int)
  | _, 0 => []
  | i, k + 1 =>
    (if i + 1 < n then some ((csizeAt blocks i : Nat) : Int) else none)
      :: expectedReqs blocks n (i + 1) k

/-! ### The concrete FASTA file of the specification -/

/-- The six-line FASTA text of the specification's end-to-end scenario. -/
def specFASTA : List Char :=
  (">seq1\nACTG\nACTG\nAC\n>seq2\nGTC\nG\n").toList

/-- The full sequence of record `seq1` of `specFASTA`. -/
def specSeq1 : List Char := ("ACTGACTGAC").toList

/-- The FAI entries of `specFASTA` as the specification lists them. -/
def specIndexEntries : List FaiEntry :=
  [{ name := "seq1", length := 10, offset := 6, linebases := 4, linewidth := 5 },
   { name := "seq2", length := 4, offset := 25, linebases := 3, linewidth := 4 }]

/-- An open uncompressed `FASTAFile` over `specFASTA` with its FAI. -/
def specFile : FASTAFilePlain :=
  { data := specFASTA, index := some specIndexEntries, closed := false }

/-- The FASTA text whose first record's length is an exact multiple of its
linebases (the case claim C3 singles out). -/
def exactMultipleFASTA : List Char := (">a\nACTG\n>b\nGG\n").toList

/-- The FAI entries matching `exactMultipleFASTA` (as its builder output
parses). -/
def exactMultipleEntries : List FaiEntry :=
  [{ name := "a", length := 4, offset := 3, linebases := 4, linewidth := 5 },
   { name := "b", length := 2, offset := 11, linebases := 2, linewidth := 3 }]

/-- A CRLF-terminated FASTA text with a valid FAI (terminator width 2). -/
def crlfFASTA : List Char := (">s\r\nAC\r\nGT\r\n").toList

/-- The FAI entry of `crlfFASTA`. -/
def crlfEntries : List FaiEntry :=
  [{ name := "s", length := 4, offset := 4, linebases := 2, linewidth := 4 }]

/-- The plain `FASTAFile` over `crlfFASTA`. -/
def crlfPlainFile : FASTAFilePlain :=
  { data := crlfFASTA, index := some crlfEntries, closed := false }

/-- The specification's file after `close()`. -/
def specFileClosed : FASTAFilePlain :=
  { data := specFASTA, index := some specIndexEntries, closed := true }

/-- The `FASTAFile` that `mkBGZFFile` builds for the specification FASTA:
one data block (the text fits one BGZF block and ends in a newline) plus the
EOF marker block, and the one-entry GZI. -/
def specBGZF : FASTAFileBGZF :=
  { blocks := [{ csize := csizeModel specFASTA, payload := specFASTA },
               { csize := csizeModel [], payload := [] }],
    index := some specIndexEntries,
    gzi := some [(0, 0)],
    closed := false }

/-! ### Helper lemmas: Python slicing -/

theorem list_map_getD_range [Inhabited α] (l : List α) :
    (List.range l.length).map (fun k => l.getD k default) = l := by
  apply List.ext_getElem
  · simp
  · intro i h1 h2
    simp [List.getD_eq_getElem?_getD, List.getElem?_eq_getElem, h2]

theorem pySliceLen_zero_len_one (n : Nat) : pySliceLen 0 (n : Int) 1 = n := by
  unfold pySliceLen
  rcases Nat.eq_zero_or_pos n with h | h
  · subst h; norm_num
  · have hpos : (0 : Int) < (n : Int) := by exact_mod_cast h
    rw [if_pos (by norm_num : (0 : Int) < 1), if_pos hpos]
    have h1 : (1 : Int).toNat = 1 := rfl
    rw [h1, Nat.div_one]
    omega

theorem pySlice_one [Inhabited α] (l : List α) : pySlice l none none 1 = l := by
  show (List.range (pySliceLen (pySliceAdjustStart l.length none 1)
      (pySliceAdjustStop l.length none 1) 1)).map
      (fun (k : Nat) =>
        l.getD (pySliceAdjustStart l.length none 1 + (k : Int) * 1).toNat default) = l
  have h1 : pySliceAdjustStart l.length none 1 = 0 := rfl
  have h2 : pySliceAdjustStop l.length none 1 = (l.length : Int) := rfl
  rw [h1, h2, pySliceLen_zero_len_one]
  calc (List.range l.length).map
        (fun (k : Nat) => l.getD ((0 : Int) + (k : Int) * 1).toNat default)
      = (List.range l.length).map (fun k => l.getD k default) :=
        List.map_congr_left (fun k _ => by norm_num)
    _ = l := list_map_getD_range l

theorem getD_reverse [Inhabited α] (l : List α) (i : Nat) (h : i < l.length) :
    l.reverse.getD i default = l.getD (l.length - 1 - i) default := by
  rw [List.getD_eq_getElem?_getD, List.getD_eq_getElem?_getD, List.getElem?_reverse h]

theorem pySliceLen_neg_eq (n : Nat) (s : Int) (hs : s < 0) :
    pySliceLen ((n : Int) - 1) (-1) s = pySliceLen 0 (n : Int) (-s) := by
  unfold pySliceLen
  rw [if_neg (by omega : ¬ (0 : Int) < s), if_pos (by omega : (0 : Int) < -s)]
  rcases Nat.eq_zero_or_pos n with h | h
  · subst h; norm_num
  · rw [if_pos (by omega : (-1 : Int) < (n : Int) - 1),
      if_pos (by exact_mod_cast h : (0 : Int) < (n : Int))]
    have : ((n : Int) - 1 - (-1) - 1) = ((n : Int) - 0 - 1) := by ring
    rw [this]

theorem pySliceLen_pos_bound (n : Nat) (s : Int) (hs : 0 < s) (k : Nat)
    (hk : k < pySliceLen 0 (n : Int) s) : k * s.toNat ≤ n - 1 ∧ 0 < n := by
  unfold pySliceLen at hk
  rw [if_pos hs] at hk
  by_cases hn : (0 : Int) < (n : Int)
  · rw [if_pos hn] at hk
    refine ⟨?_, by omega⟩
    have hst : 0 < s.toNat := by omega
    have hle : k ≤ ((n : Int) - 0 - 1).toNat / s.toNat := by omega
    have := (Nat.le_div_iff_mul_le hst).mp hle
    omega
  · rw [if_neg hn] at hk
    omega

theorem pySlice_neg [Inhabited α] (l : List α) (s : Int) (hs : s < 0) :
    pySlice l none none s = pySlice l.reverse none none (-s) := by
  show (List.range (pySliceLen (pySliceAdjustStart l.length none s)
      (pySliceAdjustStop l.length none s) s)).map
      (fun (k : Nat) =>
        l.getD (pySliceAdjustStart l.length none s + (k : Int) * s).toNat default)
    = (List.range (pySliceLen (pySliceAdjustStart l.reverse.length none (-s))
      (pySliceAdjustStop l.reverse.length none (-s)) (-s))).map
      (fun (k : Nat) =>
        l.reverse.getD
          (pySliceAdjustStart l.reverse.length none (-s) + (k : Int) * (-s)).toNat default)
  have hrev : l.reverse.length = l.length := List.length_reverse l
  have ha1 : pySliceAdjustStart l.length none s
      = if s < 0 then (l.length : Int) - 1 else 0 := rfl
  have ha2 : pySliceAdjustStop l.length none s
      = if s < 0 then -1 else (l.length : Int) := rfl
  have hb1 : pySliceAdjustStart l.reverse.length none (-s)
      = if -s < 0 then (l.reverse.length : Int) - 1 else 0 := rfl
  have hb2 : pySliceAdjustStop l.reverse.length none (-s)
      = if -s < 0 then -1 else (l.reverse.length : Int) := rfl
  rw [ha1, ha2, hb1, hb2, hrev, if_pos hs, if_pos hs,
    if_neg (by omega : ¬ -s < 0), if_neg (by omega : ¬ -s < 0),
    pySliceLen_neg_eq l.length s hs]
  apply List.map_congr_left
  intro k hk
  rw [List.mem_range] at hk
  obtain ⟨hbound, hn⟩ := pySliceLen_pos_bound l.length (-s) (by omega) k hk
  have hst : 0 < (-s).toNat := by omega
  have hms : (((-s).toNat : Nat) : Int) = -s := by omega
  have hcast : ((k * (-s).toNat : Nat) : Int) = (k : Int) * (-s) := by
    push_cast
    rw [hms]
  have hks : (k : Int) * s = -((k : Int) * (-s)) := by ring
  have hidx1 : ((l.length : Int) - 1 + (k : Int) * s).toNat
      = l.length - 1 - k * (-s).toNat := by omega
  have hidx2 : ((0 : Int) + (k : Int) * (-s)).toNat = k * (-s).toNat := by omega
  rw [hidx1, hidx2, getD_reverse l _ (by omega)]

theorem pySlice_neg_one [Inhabited α] (l : List α) : pySlice l none none (-1) = l.reverse := by
  rw [pySlice_neg l (-1) (by norm_num), (by norm_num : -(-1 : Int) = 1)]
  exact pySlice_one l.reverse

theorem pySlice_nil [Inhabited α] (s : Int) : pySlice ([] : List α) none none s = [] := by
  unfold pySlice pySliceAdjustStart pySliceAdjustStop pySliceLen
  split_ifs <;> simp_all

/-! ### Helper lemmas: the normalisation phase is step-sign invariant -/

theorem resolveRange_pos (L : Int) (a b : Option Int) (s : Int) (hs : 0 < s) :
    resolveRange L a b s = resolveRange L a b 1 := by
  have hnn : ¬ s < 0 := by omega
  unfold resolveRange
  rcases a with _ | av <;> rcases b with _ | bv <;>
    simp only [gt_iff_lt, hs, hnn, if_true, if_false, ite_true, ite_false,
      (by norm_num : (0 : Int) < 1), (by norm_num : ¬ (1 : Int) < 0),
      true_and, false_and]

theorem resolveRange_neg (L : Int) (a b : Option Int) (s : Int) (hs : s < 0) :
    resolveRange L a b s = resolveRange L a b (-1) := by
  have hnn : ¬ 0 < s := by omega
  unfold resolveRange
  rcases a with _ | av <;> rcases b with _ | bv <;>
    simp only [gt_iff_lt, hs, hnn, if_true, if_false, ite_true, ite_false,
      (by norm_num : (-1 : Int) < 0), (by norm_num : ¬ (0 : Int) < (-1 : Int)),
      true_and, false_and]

/-- The step slice of `fetchTail`: a stepped fetch is the unit-step fetch
of the same orientation post-composed with the Python step slice of the
step's magnitude. -/
theorem fetchTail_step (data : List Char) (e : FaiEntry) (a b : Option Int)
    (s : Int) (hs : s ≠ 0) :
    fetchTail data e a b s
      = (fetchTail data e a b (if 0 < s then 1 else -1)).map
          (fun t => pySlice t none none (if 0 < s then s else -s)) := by
  by_cases hsp : 0 < s
  · rw [if_pos hsp, if_pos hsp]
    unfold fetchTail
    rw [← resolveRange_pos e.length a b s hsp]
    cases hres : resolveRange e.length a b s with
    | error err => rfl
    | ok r =>
      cases r with
      | empty => simp [Except.map, pySlice_nil]
      | range lo hi =>
        show (match readRegion data e lo hi with
              | Except.error err => Except.error err
              | Except.ok sequence => pyStepSliceE sequence s)
            = (match readRegion data e lo hi with
               | Except.error err => Except.error err
               | Except.ok sequence => pyStepSliceE sequence 1).map
                (fun t => pySlice t none none s)
        cases hread : readRegion data e lo hi with
        | error err => rfl
        | ok sequence =>
          show pyStepSliceE sequence s
            = (pyStepSliceE sequence 1).map (fun t => pySlice t none none s)
          unfold pyStepSliceE
          rw [if_neg hs, if_neg (by norm_num : ¬ (1 : Int) = 0)]
          simp [Except.map, pySlice_one]
  · have hsn : s < 0 := by omega
    rw [if_neg hsp, if_neg hsp]
    unfold fetchTail
    rw [← resolveRange_neg e.length a b s hsn]
    cases hres : resolveRange e.length a b s with
    | error err => rfl
    | ok r =>
      cases r with
      | empty => simp [Except.map, pySlice_nil]
      | range lo hi =>
        show (match readRegion data e lo hi with
              | Except.error err => Except.error err
              | Except.ok sequence => pyStepSliceE sequence s)
            = (match readRegion data e lo hi with
               | Except.error err => Except.error err
               | Except.ok sequence => pyStepSliceE sequence (-1)).map
                (fun t => pySlice t none none (-s))
        cases hread : readRegion data e lo hi with
        | error err => rfl
        | ok sequence =>
          show pyStepSliceE sequence s
            = (pyStepSliceE sequence (-1)).map (fun t => pySlice t none none (-s))
          unfold pyStepSliceE
          rw [if_neg hs, if_neg (by norm_num : ¬ (-1 : Int) = 0)]
          simp only [Except.map, pySlice_neg_one]
          rw [← pySlice_neg sequence s hsn]

/-- The step decomposition lifted to `FASTAFile._fetch` on an uncompressed
file (any seqid, any bounds, any file state). -/
theorem fetchPlain_step (f : FASTAFilePlain) (seqid : String) (a b : Option Int)
    (s : Int) (hs : s ≠ 0) :
    f.fetch seqid a b (some s)
      = (f.fetch seqid a b (some (if 0 < s then 1 else -1))).map
          (fun t => pySlice t none none (if 0 < s then s else -s)) := by
  unfold FASTAFilePlain.fetch
  by_cases hc : f.closed = true
  · rw [if_pos hc, if_pos hc]
    rfl
  · rw [if_neg hc, if_neg hc]
    cases hidx : f.index with
    | none => rfl
    | some idx =>
      show (match lookupEntry idx seqid with
            | none => Except.error FetchErr.keyError
            | some e => fetchTail f.data e a b ((some s).getD 1))
          = (match lookupEntry idx seqid with
             | none => Except.error FetchErr.keyError
             | some e =>
               fetchTail f.data e a b
                 ((some (if 0 < s then 1 else -1)).getD 1)).map
              (fun t => pySlice t none none (if 0 < s then s else -s))
      cases hent : lookupEntry idx seqid with
      | none => rfl
      | some e => exact fetchTail_step f.data e a b s hs

/-- Reduce `FASTAFile._fetch` to its tail when the file is open and the
lookup succeeds. -/
theorem fetch_eq_fetchTail (f : FASTAFilePlain) (seqid : String)
    (idx : List FaiEntry) (e : FaiEntry) (a? b? s? : Option Int)
    (hclosed : f.closed = false) (hidx : f.index = some idx)
    (hent : lookupEntry idx seqid = some e) :
    f.fetch seqid a? b? s? = fetchTail f.data e a? b? (s?.getD 1) := by
  unfold FASTAFilePlain.fetch
  rw [hidx, if_neg (by rw [hclosed]; exact Bool.false_ne_true)]
  show (match lookupEntry idx seqid with
        | none => Except.error FetchErr.keyError
        | some e => fetchTail f.data e a? b? (s?.getD 1))
      = fetchTail f.data e a? b? (s?.getD 1)
  rw [hent]

/-! ### Helper lemmas: byte offsets and reads -/

theorem base_to_byte_offset_nonneg (x lb lw : Int) (hlb : 1 ≤ lb) (hlw : 0 ≤ lw)
    (hx : 0 ≤ x) : 0 ≤ base_to_byte_offset x lb lw := by
  unfold base_to_byte_offset
  have hb : (0 : Int) ≤ lb := by omega
  rw [Int.fdiv_eq_ediv _ hb, Int.fmod_eq_emod _ hb]
  have h1 : 0 ≤ x / lb := Int.ediv_nonneg hx hb
  have h2 : 0 ≤ x % lb := Int.emod_nonneg x (by omega)
  have h3 : 0 ≤ (x / lb) * lw := mul_nonneg h1 hlw
  omega

theorem base_to_byte_offset_mono (x y lb lw : Int) (hlb : 1 ≤ lb) (hlw : lb ≤ lw)
    (_hx : 0 ≤ x) (hxy : x ≤ y) :
    base_to_byte_offset x lb lw ≤ base_to_byte_offset y lb lw := by
  unfold base_to_byte_offset
  have hb : (0 : Int) ≤ lb := by omega
  rw [Int.fdiv_eq_ediv _ hb, Int.fmod_eq_emod _ hb,
    Int.fdiv_eq_ediv _ hb, Int.fmod_eq_emod _ hb]
  have hq : x / lb ≤ y / lb := Int.ediv_le_ediv (by omega) hxy
  have hxm : x % lb = x - lb * (x / lb) := Int.emod_def x lb
  have hym : y % lb = y - lb * (y / lb) := Int.emod_def y lb
  rcases lt_or_eq_of_le hq with hlt | heq
  · have hx1 : x % lb < lb := Int.emod_lt_of_pos x (by omega)
    have hy0 : 0 ≤ y % lb := Int.emod_nonneg y (by omega)
    have hmul : (x / lb + 1) * lw ≤ (y / lb) * lw :=
      mul_le_mul_of_nonneg_right (by omega) (by omega)
    have hexp : (x / lb + 1) * lw = (x / lb) * lw + lw := by ring
    rw [hexp] at hmul
    omega
  · rw [← heq]
    rw [← heq] at hym
    omega

theorem pyRead_append (data : List Char) (p n m : Nat) :
    pyRead data p (n : Int) ++ pyRead data (p + n) (m : Int)
      = pyRead data p ((n : Int) + m) := by
  unfold pyRead
  rw [if_neg (by omega : ¬ ((n : Int) < 0)), if_neg (by omega : ¬ ((m : Int) < 0)),
    if_neg (by omega : ¬ ((n : Int) + m < 0))]
  have e1 : ((n : Int)).toNat = n := by omega
  have e2 : ((m : Int)).toNat = m := by omega
  have e3 : ((n : Int) + m).toNat = n + m := by omega
  rw [e1, e2, e3, ← List.drop_drop n p data, ← List.take_add]

/-- `resolveRange` on an in-range forward pair of natural bounds. -/
theorem resolveRange_nat_le (L : Int) (x y : Nat) (hxy : x ≤ y) (hyL : (y : Int) ≤ L) :
    resolveRange L (some (x : Int)) (some (y : Int)) 1
      = if x = y then Except.ok Resolved.empty
        else Except.ok (Resolved.range (x : Int) (y : Int)) := by
  show (if (max (-1) (min (if ((x : Nat) : Int) < 0 then L + (x : Nat) else (x : Nat)) L))
          = (max (-1) (min (if ((y : Nat) : Int) < 0 then L + (y : Nat) else (y : Nat)) L))
        then Except.ok Resolved.empty
        else if (1 : Int) > 0 ∧ (max (-1) (min (if ((x : Nat) : Int) < 0 then L + (x : Nat) else (x : Nat)) L))
            > (max (-1) (min (if ((y : Nat) : Int) < 0 then L + (y : Nat) else (y : Nat)) L))
        then Except.ok Resolved.empty
        else if (1 : Int) < 0 ∧ (max (-1) (min (if ((x : Nat) : Int) < 0 then L + (x : Nat) else (x : Nat)) L))
            < (max (-1) (min (if ((y : Nat) : Int) < 0 then L + (y : Nat) else (y : Nat)) L))
        then Except.ok Resolved.empty
        else if (max (-1) (min (if ((x : Nat) : Int) < 0 then L + (x : Nat) else (x : Nat)) L))
            > (max (-1) (min (if ((y : Nat) : Int) < 0 then L + (y : Nat) else (y : Nat)) L))
        then Except.ok (Resolved.range
          ((max (-1) (min (if ((y : Nat) : Int) < 0 then L + (y : Nat) else (y : Nat)) L)) + 1)
          ((max (-1) (min (if ((x : Nat) : Int) < 0 then L + (x : Nat) else (x : Nat)) L)) + 1))
        else Except.ok (Resolved.range
          (max (-1) (min (if ((x : Nat) : Int) < 0 then L + (x : Nat) else (x : Nat)) L))
          (max (-1) (min (if ((y : Nat) : Int) < 0 then L + (y : Nat) else (y : Nat)) L))))
      = _
  have hnx : (max (-1) (min (if ((x : Nat) : Int) < 0 then L + (x : Nat) else (x : Nat)) L))
      = (x : Int) := by
    rw [if_neg (by omega : ¬ ((x : Nat) : Int) < 0)]
    omega
  have hny : (max (-1) (min (if ((y : Nat) : Int) < 0 then L + (y : Nat) else (y : Nat)) L))
      = (y : Int) := by
    rw [if_neg (by omega : ¬ ((y : Nat) : Int) < 0)]
    omega
  rw [hnx, hny]
  by_cases hxy2 : x = y
  · rw [if_pos (by omega : ((x : Nat) : Int) = (y : Nat)), if_pos hxy2]
  · rw [if_neg (by omega : ¬ ((x : Nat) : Int) = (y : Nat)),
      if_neg (by omega : ¬ ((1 : Int) > 0 ∧ ((x : Nat) : Int) > (y : Nat))),
      if_neg (by omega : ¬ ((1 : Int) < 0 ∧ ((x : Nat) : Int) < (y : Nat))),
      if_neg (by omega : ¬ ((x : Nat) : Int) > (y : Nat)), if_neg hxy2]

/-- `readRegion` with valid geometry and a non-negative seek target. -/
theorem readRegion_eq (data : List Char) (e : FaiEntry) (lo hi : Int)
    (hlb : 1 ≤ e.linebases) (hoff : 0 ≤ e.offset) (hlo : 0 ≤ lo)
    (hlw : 0 ≤ e.linewidth) :
    readRegion data e lo hi
      = Except.ok (joinSplitlines (pyRead data
          (base_to_byte_offset lo e.linebases e.linewidth + e.offset).toNat
          (base_to_byte_offset hi e.linebases e.linewidth
            - base_to_byte_offset lo e.linebases e.linewidth))) := by
  unfold readRegion
  have h0 : 0 ≤ base_to_byte_offset lo e.linebases e.linewidth :=
    base_to_byte_offset_nonneg lo e.linebases e.linewidth hlb hlw hlo
  rw [if_neg (by omega : ¬ e.linebases = 0),
    if_neg (by omega : ¬ base_to_byte_offset lo e.linebases e.linewidth + e.offset < 0)]

theorem fetchTail_of_empty (data : List Char) (e : FaiEntry) (a? b? : Option Int)
    (s : Int) (hres : resolveRange e.length a? b? s = Except.ok Resolved.empty) :
    fetchTail data e a? b? s = Except.ok [] := by
  unfold fetchTail
  rw [hres]

theorem fetchTail_of_range_one (data : List Char) (e : FaiEntry) (a? b? : Option Int)
    (lo hi : Int) (seq : List Char)
    (hres : resolveRange e.length a? b? 1 = Except.ok (Resolved.range lo hi))
    (hread : readRegion data e lo hi = Except.ok seq) :
    fetchTail data e a? b? 1 = Except.ok seq := by
  unfold fetchTail
  rw [hres]
  show (match readRegion data e lo hi with
        | Except.error err => Except.error err
        | Except.ok sequence => pyStepSliceE sequence 1) = Except.ok seq
  rw [hread]
  show pyStepSliceE seq 1 = Except.ok seq
  unfold pyStepSliceE
  rw [if_neg (by norm_num : ¬ (1 : Int) = 0), pySlice_one]

/-- The concatenation law at the `fetchTail` level. -/
theorem fetchTail_concat (data : List Char) (e : FaiEntry) (a b c : Nat)
    (hlb : 1 ≤ e.linebases) (hlw : e.linebases ≤ e.linewidth) (hoff : 0 ≤ e.offset)
    (hab : a ≤ b) (hbc : b ≤ c) (hcL : (c : Int) ≤ e.length) :
    (fetchTail data e (some (a : Int)) (some (b : Int)) 1).bind
        (fun x => (fetchTail data e (some (b : Int)) (some (c : Int)) 1).map
          (fun y => x ++ y))
      = fetchTail data e (some (a : Int)) (some (c : Int)) 1 := by
  have hlw0 : (0 : Int) ≤ e.linewidth := by omega
  by_cases hab2 : a = b
  · subst hab2
    rw [fetchTail_of_empty data e _ _ 1
      (by rw [resolveRange_nat_le e.length a a le_rfl (by omega), if_pos rfl])]
    show (fetchTail data e (some (a : Int)) (some (c : Int)) 1).map
        (fun y => [] ++ y) = fetchTail data e (some (a : Int)) (some (c : Int)) 1
    cases hv : fetchTail data e (some (a : Int)) (some (c : Int)) 1 with
    | error err => rfl
    | ok v => simp [Except.map]
  · by_cases hbc2 : b = c
    · subst hbc2
      rw [fetchTail_of_empty data e (some ((b : Nat) : Int)) (some ((b : Nat) : Int)) 1
        (by rw [resolveRange_nat_le e.length b b le_rfl (by omega), if_pos rfl])]
      show (fetchTail data e (some (a : Int)) (some (b : Int)) 1).bind
          (fun x => Except.ok (x ++ [])) = _
      cases hv : fetchTail data e (some (a : Int)) (some (b : Int)) 1 with
      | error err => rfl
      | ok v => simp [Except.bind]
    · have hres_ab : resolveRange e.length (some (a : Int)) (some (b : Int)) 1
          = Except.ok (Resolved.range (a : Int) (b : Int)) := by
        rw [resolveRange_nat_le e.length a b hab (by omega), if_neg hab2]
      have hres_bc : resolveRange e.length (some (b : Int)) (some (c : Int)) 1
          = Except.ok (Resolved.range (b : Int) (c : Int)) := by
        rw [resolveRange_nat_le e.length b c hbc (by omega), if_neg hbc2]
      have hres_ac : resolveRange e.length (some (a : Int)) (some (c : Int)) 1
          = Except.ok (Resolved.range (a : Int) (c : Int)) := by
        rw [resolveRange_nat_le e.length a c (le_trans hab hbc) (by omega),
          if_neg (by omega : ¬ a = c)]
      have hBa := base_to_byte_offset_nonneg (a : Int) e.linebases e.linewidth hlb hlw0
        (by omega)
      have hBab := base_to_byte_offset_mono (a : Int) (b : Int) e.linebases e.linewidth
        hlb hlw (by omega) (by omega)
      have hBbc := base_to_byte_offset_mono (b : Int) (c : Int) e.linebases e.linewidth
        hlb hlw (by omega) (by omega)
      rw [fetchTail_of_range_one data e _ _ _ _ _ hres_ab
          (readRegion_eq data e (a : Int) (b : Int) hlb hoff (by omega) hlw0),
        fetchTail_of_range_one data e _ _ _ _ _ hres_bc
          (readRegion_eq data e (b : Int) (c : Int) hlb hoff (by omega) hlw0),
        fetchTail_of_range_one data e _ _ _ _ _ hres_ac
          (readRegion_eq data e (a : Int) (c : Int) hlb hoff (by omega) hlw0)]
      show Except.ok (joinSplitlines (pyRead data
          (base_to_byte_offset (a : Int) e.linebases e.linewidth + e.offset).toNat
          (base_to_byte_offset (b : Int) e.linebases e.linewidth
            - base_to_byte_offset (a : Int) e.linebases e.linewidth))
          ++ joinSplitlines (pyRead data
          (base_to_byte_offset (b : Int) e.linebases e.linewidth + e.offset).toNat
          (base_to_byte_offset (c : Int) e.linebases e.linewidth
            - base_to_byte_offset (b : Int) e.linebases e.linewidth)))
        = Except.ok (joinSplitlines (pyRead data
          (base_to_byte_offset (a : Int) e.linebases e.linewidth + e.offset).toNat
          (base_to_byte_offset (c : Int) e.linebases e.linewidth
            - base_to_byte_offset (a : Int) e.linebases e.linewidth)))
      congr 1
      unfold joinSplitlines
      rw [← List.filter_append]
      congr 1
      have e1 : base_to_byte_offset (b : Int) e.linebases e.linewidth
          - base_to_byte_offset (a : Int) e.linebases e.linewidth
          = ((base_to_byte_offset (b : Int) e.linebases e.linewidth
              - base_to_byte_offset (a : Int) e.linebases e.linewidth).toNat : Int) := by
        omega
      have e2 : base_to_byte_offset (c : Int) e.linebases e.linewidth
          - base_to_byte_offset (b : Int) e.linebases e.linewidth
          = ((base_to_byte_offset (c : Int) e.linebases e.linewidth
              - base_to_byte_offset (b : Int) e.linebases e.linewidth).toNat : Int) := by
        omega
      have e3 : (base_to_byte_offset (b : Int) e.linebases e.linewidth + e.offset).toNat
          = (base_to_byte_offset (a : Int) e.linebases e.linewidth + e.offset).toNat
            + (base_to_byte_offset (b : Int) e.linebases e.linewidth
              - base_to_byte_offset (a : Int) e.linebases e.linewidth).toNat := by
        omega
      rw [e1, e2, e3, pyRead_append]
      congr 1
      omega

/-! ### Helper lemmas: block measures and compressed-token segments -/

theorem sumCsize_append (a b : List BGZFBlock) :
    sumCsize (a ++ b) = sumCsize a + sumCsize b := by
  simp [sumCsize]

theorem sumPayload_append (a b : List BGZFBlock) :
    sumPayload (a ++ b) = sumPayload a + sumPayload b := by
  simp [sumPayload]

theorem concatPayload_append (a b : List BGZFBlock) :
    concatPayload (a ++ b) = concatPayload a ++ concatPayload b := by
  simp [concatPayload]

theorem concatPayload_length (bs : List BGZFBlock) :
    (concatPayload bs).length = sumPayload bs := by
  simp [concatPayload, sumPayload, Function.comp_def]

theorem get?_some_of_lt (bs : List BGZFBlock) (i : Nat) (h : i < bs.length) :
    ∃ b, bs.get? i = some b := by
  cases hb : bs.get? i with
  | none => exact absurd (List.get?_eq_none.mp hb) (by omega)
  | some b => exact ⟨b, rfl⟩

theorem csizeAt_eq (bs : List BGZFBlock) (i : Nat) (b : BGZFBlock)
    (h : bs.get? i = some b) : csizeAt bs i = b.csize := by
  unfold csizeAt
  rw [h]
  rfl

theorem drop_cons_of_get? (bs : List BGZFBlock) (i : Nat) (b : BGZFBlock)
    (h : bs.get? i = some b) :
    bs.drop i = b :: bs.drop (i + 1) := by
  have hlt : i < bs.length := by
    by_contra hge
    rw [List.get?_eq_none.mpr (by omega)] at h
    exact Option.noConfusion h
  have := @List.drop_eq_getElem_cons BGZFBlock i bs hlt
  have hb : bs[i] = b := by
    have h' : bs[i]? = some b := by rw [← List.get?_eq_getElem?]; exact h
    rw [List.getElem?_eq_getElem hlt] at h'
    exact Option.some.inj h'
  rw [hb] at this
  exact this

theorem sumCsize_take_succ (bs : List BGZFBlock) (i : Nat) (b : BGZFBlock)
    (h : bs.get? i = some b) :
    sumCsize (bs.take (i + 1)) = sumCsize (bs.take i) + b.csize := by
  have hb : bs[i]? = some b := by rw [← List.get?_eq_getElem?]; exact h
  rw [List.take_succ, sumCsize_append, hb]
  simp [sumCsize]

theorem sumPayload_take_succ (bs : List BGZFBlock) (i : Nat) (b : BGZFBlock)
    (h : bs.get? i = some b) :
    sumPayload (bs.take (i + 1)) = sumPayload (bs.take i) + b.payload.length := by
  have hb : bs[i]? = some b := by rw [← List.get?_eq_getElem?]; exact h
  rw [List.take_succ, sumPayload_append, hb]
  simp [sumPayload]

theorem length_blockBytes (i : Nat) (b : BGZFBlock) :
    (blockBytes i b).length = b.csize := by
  simp [blockBytes]

theorem segTokens_succ (blocks : List BGZFBlock) (i k : Nat) (b : BGZFBlock)
    (h : blocks.get? i = some b) :
    segTokens blocks i (k + 1) = blockBytes i b ++ segTokens blocks (i + 1) k := by
  show (match blocks.get? i with
        | none => []
        | some b => blockBytes i b) ++ segTokens blocks (i + 1) k
      = blockBytes i b ++ segTokens blocks (i + 1) k
  rw [h]

theorem segTokens_length (blocks : List BGZFBlock) (i k : Nat)
    (h : i + k ≤ blocks.length) :
    (segTokens blocks i k).length = sumCsize ((blocks.drop i).take k) := by
  induction k generalizing i with
  | zero => simp [segTokens, sumCsize]
  | succ k ih =>
    obtain ⟨b, hb⟩ := get?_some_of_lt blocks i (by omega)
    rw [segTokens_succ blocks i k b hb, drop_cons_of_get? blocks i b hb]
    have : (b :: blocks.drop (i + 1)).take (k + 1) = b :: (blocks.drop (i + 1)).take k := rfl
    rw [this]
    have hsum : sumCsize (b :: (blocks.drop (i + 1)).take k)
        = b.csize + sumCsize ((blocks.drop (i + 1)).take k) := by
      simp [sumCsize]
    rw [hsum, List.length_append, length_blockBytes, ih (i + 1) (by omega)]

theorem enumFrom_tokens (blocks : List BGZFBlock) :
    ∀ (bs : List BGZFBlock) (i : Nat), blocks.drop i = bs →
    ((List.enumFrom i bs).map (fun p => blockBytes p.1 p.2)).flatten
      = segTokens blocks i bs.length := by
  intro bs
  induction bs with
  | nil => intro i _; rfl
  | cons b rest ih =>
    intro i hdrop
    have hget : blocks.get? i = some b := by
      rw [List.get?_eq_getElem?]
      have h0 := List.getElem?_drop blocks i 0
      rw [hdrop] at h0
      simpa using h0.symm
    have hdrop' : blocks.drop (i + 1) = rest := by
      have := List.drop_drop 1 i blocks
      rw [hdrop] at this
      simpa using this.symm
    rw [List.enumFrom_cons]
    simp only [List.map_cons, List.flatten_cons, List.length_cons]
    rw [ih (i + 1) hdrop']
    rw [segTokens_succ blocks i rest.length b hget]

theorem fileBytes_eq_segTokens (blocks : List BGZFBlock) :
    fileBytes blocks = segTokens blocks 0 blocks.length := by
  have := enumFrom_tokens blocks blocks 0 (by simp)
  simpa [fileBytes, List.enum] using this

theorem segTokens_split (blocks : List BGZFBlock) (a : Nat) :
    ∀ (i bcount : Nat), segTokens blocks i (a + bcount)
      = segTokens blocks i a ++ segTokens blocks (i + a) bcount := by
  induction a with
  | zero => intro i bcount; simp [segTokens]
  | succ a ih =>
    intro i bcount
    have h1 : a + 1 + bcount = (a + bcount) + 1 := by omega
    rw [h1]
    simp only [segTokens]
    rw [ih (i + 1) bcount, List.append_assoc]
    have h2 : i + 1 + a = i + (a + 1) := by omega
    rw [h2]

theorem drop_fileBytes (blocks : List BGZFBlock) (i : Nat) (h : i ≤ blocks.length) :
    (fileBytes blocks).drop (sumCsize (blocks.take i))
      = segTokens blocks i (blocks.length - i) := by
  have h0 : fileBytes blocks
      = segTokens blocks 0 i ++ segTokens blocks i (blocks.length - i) := by
    rw [fileBytes_eq_segTokens blocks]
    have hs := segTokens_split blocks i 0 (blocks.length - i)
    rw [Nat.zero_add] at hs
    rw [← hs]
    congr 1
    omega
  have hlen : (segTokens blocks 0 i).length = sumCsize (blocks.take i) := by
    rw [segTokens_length blocks 0 i (by omega)]
    simp
  rw [h0, List.drop_left' hlen]

/-! ### Helper lemmas: the GZI entries of a block list -/

theorem blockOffsets_length (bs : List BGZFBlock) :
    ∀ c u, (blockOffsets bs c u).length = bs.length := by
  induction bs with
  | nil => intro c u; rfl
  | cons b rest ih => intro c u; simp [blockOffsets, ih]

theorem blockOffsets_get? (bs : List BGZFBlock) :
    ∀ (c u i : Nat), i < bs.length →
      (blockOffsets bs c u).get? i
        = some (c + sumCsize (bs.take i), u + sumPayload (bs.take i)) := by
  induction bs with
  | nil => intro c u i h; simp at h
  | cons b rest ih =>
    intro c u i h
    cases i with
    | zero => simp [blockOffsets, sumCsize, sumPayload]
    | succ i =>
      have h' : i < rest.length := by simpa using h
      have heq := ih (c + b.csize) (u + b.payload.length) i h'
      show (blockOffsets rest (c + b.csize) (u + b.payload.length)).get? i = _
      rw [heq]
      have ht : (b :: rest).take (i + 1) = b :: rest.take i := rfl
      rw [ht]
      have hc : sumCsize (b :: rest.take i) = b.csize + sumCsize (rest.take i) := by
        simp [sumCsize]
      have hp : sumPayload (b :: rest.take i)
          = b.payload.length + sumPayload (rest.take i) := by
        simp [sumPayload]
      rw [hc, hp, ← Nat.add_assoc, ← Nat.add_assoc]

theorem gzi_length (db : List BGZFBlock) (eof : BGZFBlock) (hn : 1 ≤ db.length) :
    (parseGzi (bgzfIndexEntries (db ++ [eof]))).length = db.length := by
  show (((blockOffsets (db ++ [eof]) 0 0).drop 1).dropLast).length + 1 = db.length
  rw [List.length_dropLast, List.length_drop, blockOffsets_length]
  simp only [List.length_append, List.length_cons, List.length_nil]
  omega

theorem gzi_get? (db : List BGZFBlock) (eof : BGZFBlock) (i : Nat)
    (hi : i < db.length) :
    (parseGzi (bgzfIndexEntries (db ++ [eof]))).get? i
      = some (sumCsize (db.take i), sumPayload (db.take i)) := by
  cases i with
  | zero =>
    simp [parseGzi, sumCsize, sumPayload]
  | succ i =>
    have hdroplen : ((blockOffsets (db ++ [eof]) 0 0).drop 1).length = db.length := by
      rw [List.length_drop, blockOffsets_length]
      simp
    have hoff := blockOffsets_get? (db ++ [eof]) 0 0 (1 + i)
      (by simp only [List.length_append, List.length_cons, List.length_nil]; omega)
    have htake : (db ++ [eof]).take (1 + i) = db.take (1 + i) :=
      List.take_append_of_le_length (by omega)
    show ((((blockOffsets (db ++ [eof]) 0 0).drop 1).dropLast).get? i) = _
    rw [List.get?_eq_getElem?, List.getElem?_dropLast, hdroplen,
      if_pos (show i < db.length - 1 by omega), List.getElem?_drop]
    have hoff' : (blockOffsets (db ++ [eof]) 0 0)[1 + i]?
        = some (0 + sumCsize ((db ++ [eof]).take (1 + i)),
                0 + sumPayload ((db ++ [eof]).take (1 + i))) := by
      rw [← List.get?_eq_getElem?]
      exact hoff
    rw [hoff', htake]
    have h1i : 1 + i = i + 1 := by omega
    rw [h1i]
    simp

/-! ### Helper lemmas: the bisect and stop-scan loops -/

theorem bisectGo_spec (key : List Nat) (x : Int)
    (hmono : ∀ i j, i ≤ j → j < key.length → key.getD i 0 ≤ key.getD j 0) :
    ∀ (fuel lo hi : Nat), hi - lo ≤ fuel → lo ≤ hi → hi ≤ key.length →
    (∀ i, i < lo → ((key.getD i 0 : Nat) : Int) < x) →
    (∀ i, hi ≤ i → i < key.length → ¬ ((key.getD i 0 : Nat) : Int) < x) →
    lo ≤ bisectGo key x fuel lo hi ∧ bisectGo key x fuel lo hi ≤ hi ∧
    (∀ i, i < bisectGo key x fuel lo hi → ((key.getD i 0 : Nat) : Int) < x) ∧
    (∀ i, bisectGo key x fuel lo hi ≤ i → i < key.length →
      ¬ ((key.getD i 0 : Nat) : Int) < x) := by
  intro fuel
  induction fuel with
  | zero =>
    intro lo hi hfuel hlohi hhik hL hR
    have hlh : lo = hi := by omega
    subst hlh
    exact ⟨Nat.le_refl _, Nat.le_refl _, hL, hR⟩
  | succ fuel ih =>
    intro lo hi hfuel hlohi hhik hL hR
    simp only [bisectGo]
    split_ifs with h1 h2
    · -- lo < hi and key[mid] < x: recurse right
      have hL' : ∀ i, i < (lo + hi) / 2 + 1 → ((key.getD i 0 : Nat) : Int) < x := by
        intro i hilt
        rcases Nat.lt_or_ge i lo with hcase | hcase
        · exact hL i hcase
        · have hm := hmono i ((lo + hi) / 2) (by omega) (by omega)
          omega
      obtain ⟨ha, hb, hc, hd⟩ :=
        ih ((lo + hi) / 2 + 1) hi (by omega) (by omega) hhik hL' hR
      exact ⟨by omega, hb, hc, hd⟩
    · -- lo < hi and ¬ key[mid] < x: recurse left
      have hR' : ∀ i, (lo + hi) / 2 ≤ i → i < key.length →
          ¬ ((key.getD i 0 : Nat) : Int) < x := by
        intro i hge hik
        have hm := hmono ((lo + hi) / 2) i hge hik
        omega
      obtain ⟨ha, hb, hc, hd⟩ :=
        ih lo ((lo + hi) / 2) (by omega) (by omega) (by omega) hL hR'
      exact ⟨ha, by omega, hc, hd⟩
    · -- lo = hi
      have hlh : lo = hi := by omega
      subst hlh
      exact ⟨Nat.le_refl _, Nat.le_refl _, hL, hR⟩

theorem scanStopGo_spec (key : List Nat) (target : Int) :
    ∀ (fuel j : Nat), key.length - j ≤ fuel → j ≤ key.length →
    j ≤ scanStopGo key target fuel j ∧
    scanStopGo key target fuel j ≤ key.length ∧
    (∀ i, j ≤ i → i < scanStopGo key target fuel j →
      ((key.getD i 0 : Nat) : Int) < target) ∧
    (scanStopGo key target fuel j < key.length →
      ¬ ((key.getD (scanStopGo key target fuel j) 0 : Nat) : Int) < target) := by
  intro fuel
  induction fuel with
  | zero =>
    intro j hfuel hjk
    have hj : j = key.length := by omega
    simp only [scanStopGo]
    refine ⟨Nat.le_refl _, by omega, ?_, ?_⟩
    · intro i hji hij
      omega
    · intro hlt
      omega
  | succ fuel ih =>
    intro j hfuel hjk
    simp only [scanStopGo]
    split_ifs with h1
    · obtain ⟨hjlen, hjtar⟩ := h1
      obtain ⟨ha, hb, hc, hd⟩ := ih (j + 1) (by omega) (by omega)
      refine ⟨by omega, hb, ?_, hd⟩
      intro i hji hilt
      rcases Nat.eq_or_lt_of_le hji with hcase | hcase
      · rw [← hcase]; exact hjtar
      · exact hc i (by omega) hilt
    · refine ⟨Nat.le_refl _, hjk, ?_, ?_⟩
      · intro i hji hij
        omega
      · intro hlt
        intro htar
        exact h1 ⟨hlt, htar⟩

/-! ### Helper lemmas: the compressor block split -/

theorem bgzfSplitGo_spec :
    ∀ (fuel : Nat) (block source : List Char) (remBound : Bool)
      (ps : List (List Char)),
    block.length + source.length ≤ fuel →
    block.length ≤ 65485 →
    (block = [] → source = []) →
    bgzfSplitGo fuel block source remBound = Except.ok ps →
    ps.flatten = block ++ source ∧ ∀ p ∈ ps, p ≠ [] ∧ p.length ≤ 65485 := by
  intro fuel
  induction fuel with
  | zero =>
    intro block source remBound ps hfuel hb hbs h
    have hbe : block = [] := by
      cases block with
      | nil => rfl
      | cons c cs => simp at hfuel
    have hse : source = [] := hbs hbe
    subst hbe
    subst hse
    simp only [bgzfSplitGo] at h
    cases h
    simp
  | succ fuel ih =>
    intro block source remBound ps hfuel hb hbs h
    cases block with
    | nil =>
      have hse : source = [] := hbs rfl
      subst hse
      simp only [bgzfSplitGo] at h
      cases h
      simp
    | cons c cs =>
      simp only [bgzfSplitGo] at h
      split at h
      next idx hf =>
        split at h
        next e hrec => simp at h
        next out hrec =>
          injection h with h'
          subst h'
          have hlenD : ((c :: cs).drop (idx + 1)).length = (c :: cs).length - (idx + 1) := by
            simp
          have hrecfuel :
              ((c :: cs).drop (idx + 1)
                ++ source.take (65485 - ((c :: cs).drop (idx + 1)).length)).length
              + (source.drop (65485 - ((c :: cs).drop (idx + 1)).length)).length ≤ fuel := by
            simp only [List.length_append, List.length_take, List.length_drop,
              List.length_cons] at hfuel hlenD ⊢
            omega
          have hrecb :
              ((c :: cs).drop (idx + 1)
                ++ source.take (65485 - ((c :: cs).drop (idx + 1)).length)).length
              ≤ 65485 := by
            simp only [List.length_append, List.length_take, List.length_drop,
              List.length_cons]
            simp only [List.length_cons] at hb
            omega
          have hrecbs :
              (c :: cs).drop (idx + 1)
                ++ source.take (65485 - ((c :: cs).drop (idx + 1)).length) = [] →
              source.drop (65485 - ((c :: cs).drop (idx + 1)).length) = [] := by
            intro hnil
            obtain ⟨hd, ht⟩ := List.append_eq_nil.mp hnil
            rcases List.take_eq_nil_iff.mp ht with h65 | hse
            · rw [hd] at h65
              simp at h65
            · rw [hse]
              simp
          obtain ⟨hflat, hprops⟩ := ih _ _ true out hrecfuel hrecb hrecbs hrec
          refine ⟨?_, ?_⟩
          · show (c :: cs).take (idx + 1) ++ out.flatten = (c :: cs) ++ source
            rw [hflat, ← List.append_assoc, ← List.append_assoc,
              List.take_append_drop, List.append_assoc, List.take_append_drop]
          · intro p hp
            rcases List.mem_cons.mp hp with hpe | hp'
            · subst hpe
              constructor
              · have : 0 < ((c :: cs).take (idx + 1)).length := by
                  simp only [List.length_take, List.length_cons]
                  omega
                exact List.length_pos.mp this
              · show ((c :: cs).take (idx + 1)).length ≤ 65485
                simp only [List.length_take, List.length_cons]
                simp only [List.length_cons] at hb
                omega
            · exact hprops p hp'
      next hf =>
        split at h
        next hrb =>
          split at h
          next e hrec => simp at h
          next out hrec =>
            injection h with h'
            subst h'
            have hrecfuel : (source.take 65485).length + (source.drop 65485).length
                ≤ fuel := by
              simp only [List.length_take, List.length_drop, List.length_cons] at hfuel ⊢
              omega
            have hrecb : (source.take 65485).length ≤ 65485 := by
              simp only [List.length_take]
              omega
            have hrecbs : source.take 65485 = [] → source.drop 65485 = [] := by
              intro hnil
              rcases List.take_eq_nil_iff.mp hnil with h65 | hse
              · simp at h65
              · rw [hse]
                simp
            obtain ⟨hflat, hprops⟩ := ih _ _ true out hrecfuel hrecb hrecbs hrec
            refine ⟨?_, ?_⟩
            · show (c :: cs) ++ out.flatten = (c :: cs) ++ source
              rw [hflat, List.take_append_drop]
            · intro p hp
              rcases List.mem_cons.mp hp with hpe | hp'
              · subst hpe
                exact ⟨by simp, by simpa using hb⟩
              · exact hprops p hp'
        next hrb => simp at h

theorem bgzfSplit_spec (X : List Char) (ps : List (List Char))
    (h : bgzfSplit X = Except.ok ps) :
    ps.flatten = X ∧ ∀ p ∈ ps, p ≠ [] ∧ p.length ≤ 65485 := by
  unfold bgzfSplit at h
  obtain ⟨hf, hp⟩ := bgzfSplitGo_spec (X.length + 1) (X.take 65485) (X.drop 65485)
    false ps
    (by simp only [List.length_take, List.length_drop]; omega)
    (by simp only [List.length_take]; omega)
    (by
      intro hnil
      rcases List.take_eq_nil_iff.mp hnil with h65 | hse
      · simp at h65
      · rw [hse]
        simp) h
  refine ⟨?_, hp⟩
  rw [hf, List.take_append_drop]

/-! ### Helper lemmas: gzip decompression of complete block runs -/

theorem blockBytes_cons (i : Nat) (b : BGZFBlock) (c : Nat) (hc : b.csize = c + 1) :
    blockBytes i b = (i, 0) :: (List.range c).map (fun j => (i, j + 1)) := by
  unfold blockBytes
  rw [hc, List.range_succ_eq_map, List.map_cons, List.map_map]
  rfl

theorem length_le_sumCsize (bs : List BGZFBlock) (hcs : ∀ b ∈ bs, 1 ≤ b.csize) :
    bs.length ≤ sumCsize bs := by
  induction bs with
  | nil => simp [sumCsize]
  | cons b rest ih =>
    have h1 := hcs b (List.mem_cons_self b rest)
    have h2 := ih (fun x hx => hcs x (List.mem_cons_of_mem b hx))
    have : sumCsize (b :: rest) = b.csize + sumCsize rest := by simp [sumCsize]
    rw [this]
    simp only [List.length_cons]
    omega

theorem decompressGo_cons_eq (blocks : List BGZFBlock) (f i : Nat) (b : BGZFBlock)
    (rest : List CByte) (hb : blocks.get? i = some b) (hc0 : b.csize ≠ 0)
    (hcond : ((i, 0) :: rest).take b.csize = blockBytes i b) :
    decompressGo blocks (f + 1) ((i, 0) :: rest)
      = (match decompressGo blocks f (((i, 0) :: rest).drop b.csize) with
         | none => none
         | some tail => some (b.payload ++ tail)) := by
  show (if (0 : Nat) ≠ 0 then none
        else match blocks.get? i with
        | none => none
        | some bb =>
          if bb.csize ≠ 0 ∧ ((i, 0) :: rest).take bb.csize = blockBytes i bb then
            (match decompressGo blocks f (((i, 0) :: rest).drop bb.csize) with
             | none => none
             | some tail => some (bb.payload ++ tail))
          else none) = _
  rw [if_neg (by simp), hb]
  show (if b.csize ≠ 0 ∧ ((i, 0) :: rest).take b.csize = blockBytes i b then
          (match decompressGo blocks f (((i, 0) :: rest).drop b.csize) with
           | none => none
           | some tail => some (b.payload ++ tail))
        else none) = _
  rw [if_pos ⟨hc0, hcond⟩]

theorem decompressGo_seg (blocks : List BGZFBlock)
    (hcs : ∀ b ∈ blocks, 1 ≤ b.csize) :
    ∀ (k i fuel : Nat), i + k ≤ blocks.length → k ≤ fuel →
    decompressGo blocks fuel (segTokens blocks i k)
      = some (concatPayload ((blocks.drop i).take k)) := by
  intro k
  induction k with
  | zero =>
    intro i fuel hik hfuel
    simp [segTokens, decompressGo, concatPayload]
  | succ k ih =>
    intro i fuel hik hfuel
    obtain ⟨b, hb⟩ := get?_some_of_lt blocks i (by omega)
    have hbmem : b ∈ blocks := List.get?_mem hb
    obtain ⟨c, hc⟩ : ∃ c, b.csize = c + 1 := by
      have := hcs b hbmem
      exact ⟨b.csize - 1, by omega⟩
    obtain ⟨f, hf⟩ : ∃ f, fuel = f + 1 := ⟨fuel - 1, by omega⟩
    subst hf
    rw [segTokens_succ blocks i k b hb,
      blockBytes_cons i b c hc, List.cons_append]
    have hlistEq : ((i, 0) :: ((List.range c).map (fun j => (i, j + 1))
          ++ segTokens blocks (i + 1) k))
        = blockBytes i b ++ segTokens blocks (i + 1) k := by
      rw [blockBytes_cons i b c hc, List.cons_append]
    have htake : (((i, 0) :: ((List.range c).map (fun j => (i, j + 1))
          ++ segTokens blocks (i + 1) k)).take b.csize) = blockBytes i b := by
      rw [hlistEq]
      exact List.take_left' (length_blockBytes i b)
    have hdrop : (((i, 0) :: ((List.range c).map (fun j => (i, j + 1))
          ++ segTokens blocks (i + 1) k)).drop b.csize)
        = segTokens blocks (i + 1) k := by
      rw [hlistEq]
      exact List.drop_left' (length_blockBytes i b)
    rw [decompressGo_cons_eq blocks f i b _ hb (by omega) htake]
    rw [hdrop, ih (i + 1) f (by omega) (by omega)]
    show some (b.payload ++ concatPayload ((blocks.drop (i + 1)).take k))
        = some (concatPayload ((blocks.drop i).take (k + 1)))
    rw [drop_cons_of_get? blocks i b hb]
    have htk : (b :: blocks.drop (i + 1)).take (k + 1)
        = b :: (blocks.drop (i + 1)).take k := rfl
    rw [htk]
    simp [concatPayload]

theorem decompressBytes_seg (blocks : List BGZFBlock)
    (hcs : ∀ b ∈ blocks, 1 ≤ b.csize) (k i : Nat) (hk : 1 ≤ k)
    (hik : i + k ≤ blocks.length) :
    decompressBytes blocks (segTokens blocks i k)
      = some (concatPayload ((blocks.drop i).take k)) := by
  obtain ⟨k', hk'⟩ : ∃ k', k = k' + 1 := ⟨k - 1, by omega⟩
  subst hk'
  obtain ⟨b, hb⟩ := get?_some_of_lt blocks i (by omega)
  obtain ⟨c, hc⟩ : ∃ c, b.csize = c + 1 := by
    have := hcs b (List.get?_mem hb)
    exact ⟨b.csize - 1, by omega⟩
  have hne : segTokens blocks i (k' + 1)
      = (i, 0) :: ((List.range c).map (fun j => (i, j + 1))
          ++ segTokens blocks (i + 1) k') := by
    rw [segTokens_succ blocks i k' b hb, blockBytes_cons i b c hc, List.cons_append]
  have hfuel : k' + 1 ≤ (segTokens blocks i (k' + 1)).length := by
    rw [segTokens_length blocks i (k' + 1) hik]
    have hmem : ∀ x ∈ (blocks.drop i).take (k' + 1), 1 ≤ x.csize := by
      intro x hx
      exact hcs x (List.mem_of_mem_drop (List.mem_of_mem_take hx))
    have hlen : ((blocks.drop i).take (k' + 1)).length = k' + 1 := by
      simp only [List.length_take, List.length_drop]
      omega
    have := length_le_sumCsize ((blocks.drop i).take (k' + 1)) hmem
    omega
  show decompressBytes blocks (segTokens blocks i (k' + 1)) = _
  rw [hne]
  show decompressGo blocks ((i, 0) :: ((List.range c).map (fun j => (i, j + 1))
      ++ segTokens blocks (i + 1) k')).length
      ((i, 0) :: ((List.range c).map (fun j => (i, j + 1))
        ++ segTokens blocks (i + 1) k')) = _
  rw [← hne, decompressGo_seg blocks hcs (k' + 1) i _ hik hfuel]

/-! ### Helper lemmas: the block read loop -/

theorem pyIndex_gzi_nat (db : List BGZFBlock) (eof : BGZFBlock) (s : Nat)
    (hs : s < db.length) :
    pyIndex (parseGzi (bgzfIndexEntries (db ++ [eof]))) (s : Int)
      = some (sumCsize (db.take s), sumPayload (db.take s)) := by
  unfold pyIndex
  rw [if_pos (by omega), Int.toNat_ofNat]
  exact gzi_get? db eof s hs

theorem readRequests_spec (db : List BGZFBlock) (eof : BGZFBlock)
    (hn : 1 ≤ db.length) :
    ∀ (m s : Nat), s + m ≤ db.length →
    readRequests (parseGzi (bgzfIndexEntries (db ++ [eof])))
        ((List.range m).map (fun k : Nat => ((s : Int) + (k : Int))))
      = Except.ok (expectedReqs (db ++ [eof]) db.length s m) := by
  intro m
  induction m with
  | zero =>
    intro s hs
    rfl
  | succ m ih =>
    intro s hsm
    rw [List.range_succ_eq_map, List.map_cons, List.map_map]
    have hmap : (List.range m).map ((fun k : Nat => (s : Int) + (k : Int)) ∘ Nat.succ)
        = (List.range m).map (fun k : Nat => (((s + 1 : Nat) : Int) + (k : Int))) := by
      have hfn : ((fun k : Nat => (s : Int) + (k : Int)) ∘ Nat.succ)
          = (fun k : Nat => (((s + 1 : Nat) : Int) + (k : Int))) := by
        funext k
        simp only [Function.comp_apply]
        push_cast
        ring
      rw [hfn]
    rw [hmap]
    have hzero : (s : Int) + ((0 : Nat) : Int) = (s : Int) := by
      simp
    rw [hzero]
    simp only [readRequests]
    have hhead : (if (s : Int) + 1
            < ((parseGzi (bgzfIndexEntries (db ++ [eof]))).length : Int) then
          match pyIndex (parseGzi (bgzfIndexEntries (db ++ [eof]))) ((s : Int) + 1),
              pyIndex (parseGzi (bgzfIndexEntries (db ++ [eof]))) (s : Int) with
          | some nxt, some cur => Except.ok (some ((nxt.1 : Int) - (cur.1 : Int)))
          | _, _ => Except.error FetchErr.indexOutOfRange
        else Except.ok (none : Option Int))
        = Except.ok (if s + 1 < db.length
            then some ((csizeAt (db ++ [eof]) s : Nat) : Int) else none) := by
      rw [gzi_length db eof hn]
      by_cases hc : s + 1 < db.length
      · rw [if_pos (by exact_mod_cast hc)]
        have h1 : (s : Int) + 1 = ((s + 1 : Nat) : Int) := by push_cast; ring
        rw [h1, pyIndex_gzi_nat db eof (s + 1) hc, pyIndex_gzi_nat db eof s (by omega)]
        show Except.ok (some (((sumCsize (db.take (s + 1)) : Nat) : Int)
            - ((sumCsize (db.take s) : Nat) : Int))) = _
        rw [if_pos hc]
        obtain ⟨b, hbdb⟩ := get?_some_of_lt db s (by omega)
        have hget : (db ++ [eof]).get? s = some b := by
          rw [List.get?_eq_getElem?, List.getElem?_append_left (by omega),
            ← List.get?_eq_getElem?]
          exact hbdb
        rw [csizeAt_eq _ s b hget, sumCsize_take_succ db s b hbdb]
        congr 1
        congr 1
        push_cast
        ring
      · rw [if_neg (by exact_mod_cast hc), if_neg hc]
    rw [hhead]
    show (match readRequests (parseGzi (bgzfIndexEntries (db ++ [eof])))
            ((List.range m).map (fun k : Nat => (((s + 1 : Nat) : Int) + (k : Int)))) with
          | Except.error e => Except.error e
          | Except.ok out =>
            Except.ok ((if s + 1 < db.length
              then some ((csizeAt (db ++ [eof]) s : Nat) : Int) else none) :: out))
        = Except.ok (expectedReqs (db ++ [eof]) db.length s (m + 1))
    rw [ih (s + 1) (by omega)]
    show Except.ok ((if s + 1 < db.length
          then some ((csizeAt (db ++ [eof]) s : Nat) : Int) else none)
        :: expectedReqs (db ++ [eof]) db.length (s + 1) m)
      = Except.ok (expectedReqs (db ++ [eof]) db.length s (m + 1))
    rfl

theorem doReads_expected (db : List BGZFBlock) (eof : BGZFBlock) :
    ∀ (k i : Nat), 1 ≤ k → i + k ≤ db.length →
    doReads (fileBytes (db ++ [eof])) (sumCsize ((db ++ [eof]).take i))
        (expectedReqs (db ++ [eof]) db.length i k)
      = if i + k = db.length
        then segTokens (db ++ [eof]) i ((db ++ [eof]).length - i)
        else segTokens (db ++ [eof]) i k := by
  intro k
  induction k with
  | zero =>
    intro i h1 h2
    exact absurd h1 (by omega)
  | succ k ih =>
    intro i hk1 hik
    have hdropfile : (fileBytes (db ++ [eof])).drop (sumCsize ((db ++ [eof]).take i))
        = segTokens (db ++ [eof]) i ((db ++ [eof]).length - i) :=
      drop_fileBytes (db ++ [eof]) i
        (by simp only [List.length_append, List.length_cons, List.length_nil]; omega)
    by_cases hc : i + 1 < db.length
    · obtain ⟨bfull, hbfull⟩ := get?_some_of_lt (db ++ [eof]) i
        (by simp only [List.length_append, List.length_cons, List.length_nil]; omega)
      have hreq : expectedReqs (db ++ [eof]) db.length i (k + 1)
          = some ((csizeAt (db ++ [eof]) i : Nat) : Int)
            :: expectedReqs (db ++ [eof]) db.length (i + 1) k := by
        show (if i + 1 < db.length
            then some ((csizeAt (db ++ [eof]) i : Nat) : Int) else none) :: _ = _
        rw [if_pos hc]
      rw [hreq]
      simp only [doReads]
      rw [if_neg (by omega), csizeAt_eq _ i bfull hbfull, Int.toNat_ofNat]
      have hsegsucc : segTokens (db ++ [eof]) i ((db ++ [eof]).length - i)
          = blockBytes i bfull
            ++ segTokens (db ++ [eof]) (i + 1) ((db ++ [eof]).length - (i + 1)) := by
        have hcount : (db ++ [eof]).length - i = ((db ++ [eof]).length - (i + 1)) + 1 := by
          simp only [List.length_append, List.length_cons, List.length_nil]
          omega
        rw [hcount, segTokens_succ (db ++ [eof]) i _ bfull hbfull]
      have hchunk : ((fileBytes (db ++ [eof])).drop
            (sumCsize ((db ++ [eof]).take i))).take bfull.csize = blockBytes i bfull := by
        rw [hdropfile, hsegsucc]
        exact List.take_left' (length_blockBytes i bfull)
      rw [hchunk, length_blockBytes,
        ← sumCsize_take_succ (db ++ [eof]) i bfull hbfull]
      rcases Nat.eq_zero_or_pos k with hk0 | hkpos
      · subst hk0
        show blockBytes i bfull
            ++ doReads (fileBytes (db ++ [eof])) (sumCsize ((db ++ [eof]).take (i + 1))) []
            = _
        have hnil : doReads (fileBytes (db ++ [eof]))
            (sumCsize ((db ++ [eof]).take (i + 1))) [] = [] := rfl
        rw [hnil, List.append_nil, if_neg (by omega)]
        rw [segTokens_succ (db ++ [eof]) i 0 bfull hbfull]
        simp [segTokens]
      · rw [ih (i + 1) hkpos (by omega)]
        by_cases hc2 : i + 1 + k = db.length
        · rw [if_pos hc2, if_pos (by omega), hsegsucc]
        · rw [if_neg hc2, if_neg (by omega),
            segTokens_succ (db ++ [eof]) i k bfull hbfull]
    · have hk0 : k = 0 := by omega
      subst hk0
      have hreq : expectedReqs (db ++ [eof]) db.length i 1 = [none] := by
        show [if i + 1 < db.length
            then some ((csizeAt (db ++ [eof]) i : Nat) : Int) else none] = _
        rw [if_neg hc]
      rw [hreq]
      show (fileBytes (db ++ [eof])).drop (sumCsize ((db ++ [eof]).take i))
          ++ doReads (fileBytes (db ++ [eof])) (fileBytes (db ++ [eof])).length []
          = _
      have hnil : doReads (fileBytes (db ++ [eof]))
          (fileBytes (db ++ [eof])).length [] = [] := rfl
      rw [hnil, List.append_nil, hdropfile, if_pos (by omega)]

/-! ### Helper lemmas: slices, newline stripping, and resolved ranges -/

theorem pySlice_nonneg_one (l : List Char) (u v : Int) (hu : 0 ≤ u) (hv : 0 ≤ v) :
    pySlice l (some u) (some v) 1 = (l.drop u.toNat).take (v - u).toNat := by
  have hstart : pySliceAdjustStart l.length (some u) 1
      = if (l.length : Int) ≤ u then (l.length : Int) else u := by
    show pyAdjustIndex l.length 1 u = _
    unfold pyAdjustIndex
    rw [if_neg (by omega : ¬ u < 0)]
    by_cases hc : (l.length : Int) ≤ u
    · rw [if_pos hc, if_neg (by omega : ¬ (1 : Int) < 0), if_pos hc]
    · rw [if_neg hc, if_neg hc]
  have hstop : pySliceAdjustStop l.length (some v) 1
      = if (l.length : Int) ≤ v then (l.length : Int) else v := by
    show pyAdjustIndex l.length 1 v = _
    unfold pyAdjustIndex
    rw [if_neg (by omega : ¬ v < 0)]
    by_cases hc : (l.length : Int) ≤ v
    · rw [if_pos hc, if_neg (by omega : ¬ (1 : Int) < 0), if_pos hc]
    · rw [if_neg hc, if_neg hc]
  by_cases hule : (l.length : Int) ≤ u
  · -- start clamps to the length: empty slice, and the drop empties the list
    have hdrop : l.drop u.toNat = [] := List.drop_eq_nil_of_le (by omega)
    have hlen0 : pySliceLen (pySliceAdjustStart l.length (some u) 1)
        (pySliceAdjustStop l.length (some v) 1) 1 = 0 := by
      rw [hstart, hstop, if_pos hule]
      unfold pySliceLen
      rw [if_pos (by omega : (0 : Int) < 1)]
      split_ifs <;> omega
    show (List.range (pySliceLen (pySliceAdjustStart l.length (some u) 1)
          (pySliceAdjustStop l.length (some v) 1) 1)).map
        (fun k : Nat => l.getD
          ((pySliceAdjustStart l.length (some u) 1) + (k : Int) * 1).toNat default)
      = (l.drop u.toNat).take (v - u).toNat
    rw [hlen0, hdrop]
    simp
  · -- start is u itself
    have hAu : pySliceAdjustStart l.length (some u) 1 = u := by
      rw [hstart, if_neg hule]
    have hBmin : pySliceAdjustStop l.length (some v) 1 = min v (l.length : Int) := by
      rw [hstop]
      split_ifs with hc <;> omega
    have hlen1 : pySliceLen u (min v (l.length : Int)) 1
        = (min v (l.length : Int) - u).toNat := by
      unfold pySliceLen
      rw [if_pos (by omega : (0 : Int) < 1)]
      split_ifs with hAB
      · have h1 : (1 : Int).toNat = 1 := rfl
        rw [h1, Nat.div_one]
        omega
      · omega
    show (List.range (pySliceLen (pySliceAdjustStart l.length (some u) 1)
          (pySliceAdjustStop l.length (some v) 1) 1)).map
        (fun k : Nat => l.getD
          ((pySliceAdjustStart l.length (some u) 1) + (k : Int) * 1).toNat default)
      = (l.drop u.toNat).take (v - u).toNat
    rw [hAu, hBmin, hlen1]
    apply List.ext_getElem?
    intro k
    rw [List.getElem?_map, List.getElem?_take, List.getElem?_drop]
    by_cases hk : k < (min v (l.length : Int) - u).toNat
    · rw [List.getElem?_range hk, Option.map_some']
      rw [if_pos (show k < (v - u).toNat by omega)]
      have hidx : (u + (k : Int) * 1).toNat = u.toNat + k := by omega
      rw [hidx]
      have hklen : u.toNat + k < l.length := by omega
      rw [List.getElem?_eq_getElem hklen, List.getD_eq_getElem?_getD,
        List.getElem?_eq_getElem hklen]
      rfl
    · rw [List.getElem?_eq_none (by simpa using hk), Option.map_none']
      by_cases hk2 : k < (v - u).toNat
      · rw [if_pos hk2]
        exact (List.getElem?_eq_none (by omega)).symm
      · rw [if_neg hk2]

theorem joinSplitlines_eq_newline (s : List Char)
    (hLF : ∀ c ∈ s, pyIsLineBreak c = true → c = '\n') :
    joinSplitlines s = joinSplitNewline s := by
  unfold joinSplitlines joinSplitNewline
  apply List.filter_congr
  intro c hc
  by_cases hb : pyIsLineBreak c = true
  · have hcn := hLF c hc hb
    subst hcn
    simp [pyIsLineBreak]
  · have hnn : c ≠ '\n' := by
      intro he
      subst he
      exact hb (by simp [pyIsLineBreak])
    simp [hb, hnn]

theorem resolveRange_range_inv (L : Int) (a? b? : Option Int) (s lo hi : Int)
    (h : resolveRange L a? b? s = Except.ok (Resolved.range lo hi)) :
    -1 ≤ lo ∧ lo < hi ∧ hi ≤ L + 1 := by
  cases a? with
  | none =>
    cases b? with
    | none =>
      by_cases h1 : s > 0
      · simp only [resolveRange, if_pos h1] at h
        split_ifs at h <;> injection h with h' <;>
          first
          | (injection h' with ha hb; omega)
          | injection h'
      · by_cases h2 : s < 0
        · simp only [resolveRange, if_neg h1, if_pos h2] at h
          split_ifs at h <;> injection h with h' <;>
          first
          | (injection h' with ha hb; omega)
          | injection h'
        · simp only [resolveRange, if_neg h1, if_neg h2] at h
          injection h
    | some sb =>
      by_cases h1 : s > 0
      · simp only [resolveRange, if_pos h1] at h
        split_ifs at h <;> injection h with h' <;>
          first
          | (injection h' with ha hb; omega)
          | injection h'
      · by_cases h2 : s < 0
        · simp only [resolveRange, if_neg h1, if_pos h2] at h
          split_ifs at h <;> injection h with h' <;>
          first
          | (injection h' with ha hb; omega)
          | injection h'
        · simp only [resolveRange, if_neg h1, if_neg h2] at h
          injection h
  | some sa =>
    cases b? with
    | none =>
      by_cases h1 : s > 0
      · simp only [resolveRange, if_pos h1] at h
        split_ifs at h <;> injection h with h' <;>
          first
          | (injection h' with ha hb; omega)
          | injection h'
      · by_cases h2 : s < 0
        · simp only [resolveRange, if_neg h1, if_pos h2] at h
          split_ifs at h <;> injection h with h' <;>
          first
          | (injection h' with ha hb; omega)
          | injection h'
        · simp only [resolveRange, if_neg h1, if_neg h2] at h
          injection h
    | some sb =>
      simp only [resolveRange] at h
      split_ifs at h <;> injection h with h' <;>
          first
          | (injection h' with ha hb; omega)
          | injection h'

theorem base_to_byte_offset_neg_one (lb lw : Int) (hlb : 1 ≤ lb) :
    base_to_byte_offset (-1) lb lw = lb - 1 - lw := by
  unfold base_to_byte_offset
  have hb : (0 : Int) ≤ lb := by omega
  rw [Int.fdiv_eq_ediv _ hb, Int.fmod_eq_emod _ hb]
  obtain ⟨hq, hr⟩ := (@Int.ediv_emod_unique (-1) lb (lb - 1) (-1)
    (by omega)).mpr ⟨by ring, by omega, by omega⟩
  rw [hq, hr]
  ring

theorem sumPayload_take_le (db : List BGZFBlock)
    (hpay : ∀ b ∈ db, b.payload.length ≤ 65485) :
    ∀ i, sumPayload (db.take i) ≤ 65485 * i := by
  intro i
  induction i with
  | zero => simp [sumPayload]
  | succ i ih =>
    by_cases hi : i < db.length
    · obtain ⟨b, hb⟩ := get?_some_of_lt db i hi
      rw [sumPayload_take_succ db i b hb]
      have := hpay b (List.get?_mem hb)
      omega
    · have hnone : db[i]? = none := List.getElem?_eq_none (by omega)
      rw [List.take_succ, hnone, sumPayload_append]
      have hz : sumPayload (none : Option BGZFBlock).toList = 0 := by
        simp [sumPayload]
      rw [hz]
      omega

theorem sumPayload_take_mono (db : List BGZFBlock) (i j : Nat) (hij : i ≤ j) :
    sumPayload (db.take i) ≤ sumPayload (db.take j) := by
  have hsplit := List.take_add db i (j - i)
  have hj : i + (j - i) = j := by omega
  rw [hj] at hsplit
  rw [hsplit, sumPayload_append]
  omega

/-- The compressed read path of `_fetch` agrees with the uncompressed one:
for a BGZF block list produced by splitting `X` (data blocks followed by the
empty EOF block) and the GZI built from it, reading any resolved base range
through the block machinery returns the bytes the plain path reads, with
`split("\n")` in place of `splitlines()` (hence the newline-only hypothesis). -/
theorem bgzfReadRegion_eq_plain (db : List BGZFBlock) (eofb : BGZFBlock)
    (X : List Char) (e : FaiEntry) (lo hi : Int)
    (hX : X = concatPayload db)
    (heof : eofb.payload = [])
    (hpayle : ∀ b ∈ db, b.payload.length ≤ 65485)
    (hcs : ∀ b ∈ db ++ [eofb], 1 ≤ b.csize)
    (hn : 1 ≤ db.length)
    (hlb : 1 ≤ e.linebases) (hlw : e.linebases ≤ e.linewidth)
    (hoffg : e.linewidth - e.linebases + 2 ≤ e.offset)
    (hfit : e.offset + base_to_byte_offset (e.length + 1) e.linebases e.linewidth
      ≤ (X.length : Int) + 65536)
    (hlo : -1 ≤ lo) (hlohi : lo < hi) (hhi : hi ≤ e.length + 1)
    (hLF : ∀ c ∈ X, pyIsLineBreak c = true → c = '\n') :
    bgzfReadRegion (db ++ [eofb]) (parseGzi (bgzfIndexEntries (db ++ [eofb]))) e lo hi
      = readRegion X e lo hi := by
  have hlbne : ¬ (e.linebases = 0) := by omega
  have hB0lb := base_to_byte_offset_neg_one e.linebases e.linewidth hlb
  have h00 : base_to_byte_offset 0 e.linebases e.linewidth = 0 := by
    unfold base_to_byte_offset
    rw [Int.fdiv_eq_ediv _ (by omega), Int.fmod_eq_emod _ (by omega),
      Int.zero_ediv, Int.zero_emod]
    ring
  have hB0low : e.linebases - 1 - e.linewidth
      ≤ base_to_byte_offset lo e.linebases e.linewidth := by
    rcases eq_or_lt_of_le hlo with heq | hlt
    · rw [← heq, hB0lb]
    · have hmono0 := base_to_byte_offset_mono 0 lo e.linebases e.linewidth hlb hlw
        (by omega) (by omega)
      rw [h00] at hmono0
      omega
  have hx1 : 1 ≤ base_to_byte_offset lo e.linebases e.linewidth + e.offset := by omega
  have hhi0 : 0 ≤ hi := by omega
  have hB01 : base_to_byte_offset lo e.linebases e.linewidth
      ≤ base_to_byte_offset hi e.linebases e.linewidth := by
    rcases eq_or_lt_of_le hlo with heq | hlt
    · have := base_to_byte_offset_nonneg hi e.linebases e.linewidth hlb (by omega) hhi0
      rw [← heq, hB0lb]
      omega
    · exact base_to_byte_offset_mono lo hi e.linebases e.linewidth hlb hlw
        (by omega) (by omega)
  have hB1hi : base_to_byte_offset hi e.linebases e.linewidth
      ≤ base_to_byte_offset (e.length + 1) e.linebases e.linewidth :=
    base_to_byte_offset_mono hi (e.length + 1) e.linebases e.linewidth hlb hlw hhi0
      (by omega)
  have hXlen : X.length = sumPayload db := by
    rw [hX]
    exact concatPayload_length db
  have hUle := sumPayload_take_le db hpayle
  have hUn : sumPayload (db.take db.length) = X.length := by
    rw [List.take_length, hXlen]
  have hplain : readRegion X e lo hi
      = Except.ok (joinSplitlines ((X.drop
          (base_to_byte_offset lo e.linebases e.linewidth + e.offset).toNat).take
          (base_to_byte_offset hi e.linebases e.linewidth
            - base_to_byte_offset lo e.linebases e.linewidth).toNat)) := by
    simp only [readRegion]
    rw [if_neg hlbne, if_neg (show
      ¬ (base_to_byte_offset lo e.linebases e.linewidth + e.offset < 0) by omega)]
    simp only [pyRead]
    rw [if_neg (show ¬ (base_to_byte_offset hi e.linebases e.linewidth
      - base_to_byte_offset lo e.linebases e.linewidth < 0) by omega)]
  rw [hplain]
  simp only [bgzfReadRegion]
  rw [if_neg hlbne]
  set gzi := parseGzi (bgzfIndexEntries (db ++ [eofb])) with hgzi
  set key := gzi.map (fun p => p.2) with hkey
  set B0 := base_to_byte_offset lo e.linebases e.linewidth with hB0
  set B1 := base_to_byte_offset hi e.linebases e.linewidth with hB1
  set x := B0 + e.offset with hxdef
  set btr := B1 - B0 with hbtrdef
  have hglen : gzi.length = db.length := by
    rw [hgzi]
    exact gzi_length db eofb hn
  have hkeylen : key.length = db.length := by
    rw [hkey, List.length_map, hglen]
  have hkeyD : ∀ i, i < db.length → key.getD i 0 = sumPayload (db.take i) := by
    intro i hi2
    rw [hkey, List.getD_eq_getElem?_getD, List.getElem?_map, hgzi,
      ← List.get?_eq_getElem?, gzi_get? db eofb i hi2]
    rfl
  have hmono : ∀ i j, i ≤ j → j < key.length → key.getD i 0 ≤ key.getD j 0 := by
    intro i j hij hj
    rw [hkeylen] at hj
    rw [hkeyD i (by omega), hkeyD j hj]
    exact sumPayload_take_mono db i j hij
  have hm0 : 0 ≤ x.fdiv 65536 := by
    rw [Int.fdiv_eq_ediv _ (by omega)]
    exact Int.ediv_nonneg (by omega) (by omega)
  have h65div : 65536 * (x.fdiv 65536) ≤ x := by
    rw [Int.fdiv_eq_ediv _ (by omega)]
    have h1 := Int.ediv_add_emod x 65536
    have h2 := Int.emod_nonneg x (show (65536 : Int) ≠ 0 by omega)
    omega
  have hxub : x ≤ (65485 : Int) * db.length + 65536 := by
    have h1 := hUle db.length
    omega
  have hmn : (x.fdiv 65536).toNat ≤ db.length := by omega
  obtain ⟨r, hrdef⟩ : ∃ r, bisectGo key x (gzi.length - (x.fdiv 65536).toNat)
      (x.fdiv 65536).toNat gzi.length = r := ⟨_, rfl⟩
  have hLinit : ∀ i, i < (x.fdiv 65536).toNat → ((key.getD i 0 : Nat) : Int) < x := by
    intro i hi2
    rw [hkeyD i (by omega)]
    have h1 := hUle i
    omega
  have hRinit : ∀ i, gzi.length ≤ i → i < key.length →
      ¬ ((key.getD i 0 : Nat) : Int) < x := by
    intro i h1 h2
    rw [hglen] at h1
    rw [hkeylen] at h2
    omega
  obtain ⟨hr1, hr2, hrL, hrR⟩ := bisectGo_spec key x hmono
    (gzi.length - (x.fdiv 65536).toNat) (x.fdiv 65536).toNat gzi.length
    (by omega) (by omega) (by omega) hLinit hRinit
  rw [hrdef] at hr1 hr2 hrL hrR
  have hU0 : key.getD 0 0 = 0 := by
    rw [hkeyD 0 (by omega)]
    simp [sumPayload]
  have hrge1 : 1 ≤ r := by
    by_contra hcon
    have h0r := hrR 0 (by omega) (by omega)
    rw [hU0] at h0r
    omega
  have hrn : r ≤ db.length := by omega
  have hUr : ((sumPayload (db.take (r - 1)) : Nat) : Int) < x := by
    have h1 := hrL (r - 1) (by omega)
    rw [hkeyD (r - 1) (by omega)] at h1
    exact h1
  have hbis : bisectLeft key x (x.fdiv 65536) gzi.length = Except.ok r := by
    unfold bisectLeft
    rw [if_neg (by omega), hrdef]
  have hr1n : (r : Int) - 1 = ((r - 1 : Nat) : Int) := by omega
  have hpyidx : pyIndex gzi ((r : Int) - 1)
      = some (sumCsize (db.take (r - 1)), sumPayload (db.take (r - 1))) := by
    rw [hr1n, hgzi]
    exact pyIndex_gzi_nat db eofb (r - 1) (by omega)
  obtain ⟨q, hqdef⟩ : ∃ q, scanStop key (x + btr) r = q := ⟨_, rfl⟩
  have hscaneq : scanStopGo key (x + btr) (key.length - r) r = q := hqdef
  obtain ⟨hq1, hq2, hqL, hqR⟩ := scanStopGo_spec key (x + btr)
    (key.length - r) r (by omega) (by omega)
  rw [hscaneq] at hq1 hq2 hqL hqR
  have hqn : q ≤ db.length := by omega
  have hcover : q < db.length → x + btr ≤ ((sumPayload (db.take q) : Nat) : Int) := by
    intro hlt
    have h1 := hqR (by omega)
    rw [hkeyD q (by omega)] at h1
    omega
  have hreqs : readRequests gzi ((List.range (((q : Int) - ((r : Int) - 1)).toNat)).map
      (fun (k : Nat) => ((r : Int) - 1) + (k : Int)))
      = Except.ok (expectedReqs (db ++ [eofb]) db.length (r - 1) (q - (r - 1))) := by
    have h1 : (((q : Int) - ((r : Int) - 1)).toNat) = q - (r - 1) := by omega
    rw [h1, hr1n, hgzi]
    exact readRequests_spec db eofb hn (q - (r - 1)) (r - 1) (by omega)
  have hdor : doReads (fileBytes (db ++ [eofb])) (sumCsize (db.take (r - 1)))
      (expectedReqs (db ++ [eofb]) db.length (r - 1) (q - (r - 1)))
      = if (r - 1) + (q - (r - 1)) = db.length
        then segTokens (db ++ [eofb]) (r - 1) ((db ++ [eofb]).length - (r - 1))
        else segTokens (db ++ [eofb]) (r - 1) (q - (r - 1)) := by
    have htk : (db ++ [eofb]).take (r - 1) = db.take (r - 1) :=
      List.take_append_of_le_length (by omega)
    rw [← htk]
    exact doReads_expected db eofb (q - (r - 1)) (r - 1) (by omega) (by omega)
  have hbtrpos : 0 ≤ btr := by omega
  have hsub : ∀ c ∈ (X.drop x.toNat).take btr.toNat,
      pyIsLineBreak c = true → c = '\n' := by
    intro c hc hb
    exact hLF c (List.mem_of_mem_drop (List.mem_of_mem_take hc)) hb
  have hjoin : joinSplitlines ((X.drop x.toNat).take btr.toNat)
      = joinSplitNewline ((X.drop x.toNat).take btr.toNat) :=
    joinSplitlines_eq_newline _ hsub
  have hXsplit : X = concatPayload (db.take (r - 1))
      ++ concatPayload (db.drop (r - 1)) := by
    rw [hX, ← concatPayload_append, List.take_append_drop]
  have hlenA : (db ++ [eofb]).length = db.length + 1 := by
    simp only [List.length_append, List.length_cons, List.length_nil]
  rcases Nat.lt_or_ge q db.length with hqlt | hqge
  · -- the scan stopped before the last block: the read covers the request
    have hdor2 : doReads (fileBytes (db ++ [eofb])) (sumCsize (db.take (r - 1)))
        (expectedReqs (db ++ [eofb]) db.length (r - 1) (q - (r - 1)))
        = segTokens (db ++ [eofb]) (r - 1) (q - (r - 1)) := by
      rw [hdor, if_neg (by omega)]
    have hdec := decompressBytes_seg (db ++ [eofb]) hcs (q - (r - 1)) (r - 1)
      (by omega)
      (by simp only [List.length_append, List.length_cons, List.length_nil]; omega)
    simp only [hbis, hpyidx, hqdef, hreqs, hdor2, hdec]
    have hseg : ((db ++ [eofb]).drop (r - 1)).take (q - (r - 1))
        = (db.drop (r - 1)).take (q - (r - 1)) := by
      rw [List.drop_append_of_le_length (by omega)]
      exact List.take_append_of_le_length (by simp only [List.length_drop]; omega)
    rw [hseg]
    have htq := List.take_add db (r - 1) (q - (r - 1))
    have hq3 : (r - 1) + (q - (r - 1)) = q := by omega
    rw [hq3] at htq
    have hXq : X = concatPayload (db.take (r - 1))
        ++ (concatPayload ((db.drop (r - 1)).take (q - (r - 1)))
          ++ concatPayload (db.drop q)) := by
      calc X = concatPayload (db.take q ++ db.drop q) := by
              rw [List.take_append_drop, hX]
        _ = concatPayload (db.take q) ++ concatPayload (db.drop q) :=
              concatPayload_append _ _
        _ = _ := by rw [htq, concatPayload_append, List.append_assoc]
    have hdropX : X.drop (sumPayload (db.take (r - 1)))
        = concatPayload ((db.drop (r - 1)).take (q - (r - 1)))
          ++ concatPayload (db.drop q) := by
      rw [hXq]
      exact List.drop_left' (concatPayload_length _)
    have hSlen : (concatPayload ((db.drop (r - 1)).take (q - (r - 1)))).length
        = sumPayload (db.take q) - sumPayload (db.take (r - 1)) := by
      rw [concatPayload_length]
      have h1 := congrArg sumPayload htq
      rw [sumPayload_append] at h1
      omega
    have hSEG : concatPayload ((db.drop (r - 1)).take (q - (r - 1)))
        = (X.drop (sumPayload (db.take (r - 1)))).take
            (sumPayload (db.take q) - sumPayload (db.take (r - 1))) := by
      rw [← hSlen, hdropX, List.take_left]
    rw [hSEG, pySlice_nonneg_one _ _ _ (by omega) (by omega)]
    have hbtr2 : (x - ((sumPayload (db.take (r - 1)) : Nat) : Int)) + btr
        - (x - ((sumPayload (db.take (r - 1)) : Nat) : Int)) = btr := by ring
    rw [hbtr2, List.drop_take, List.take_take, List.drop_drop]
    have hidx1 : sumPayload (db.take (r - 1))
        + (x - ((sumPayload (db.take (r - 1)) : Nat) : Int)).toNat = x.toNat := by
      omega
    rw [hidx1]
    have hmin : min btr.toNat ((sumPayload (db.take q) - sumPayload (db.take (r - 1)))
        - (x - ((sumPayload (db.take (r - 1)) : Nat) : Int)).toNat) = btr.toNat := by
      have hcov := hcover hqlt
      omega
    rw [hmin, hjoin]
  · -- the scan ran to the end: the read runs to EOF and both sides clip there
    have hqeq : q = db.length := by omega
    have hdor2 : doReads (fileBytes (db ++ [eofb])) (sumCsize (db.take (r - 1)))
        (expectedReqs (db ++ [eofb]) db.length (r - 1) (q - (r - 1)))
        = segTokens (db ++ [eofb]) (r - 1) ((db ++ [eofb]).length - (r - 1)) := by
      rw [hdor, if_pos (by omega)]
    have hdec := decompressBytes_seg (db ++ [eofb]) hcs
      ((db ++ [eofb]).length - (r - 1)) (r - 1)
      (by simp only [List.length_append, List.length_cons, List.length_nil]; omega)
      (by omega)
    simp only [hbis, hpyidx, hqdef, hreqs, hdor2, hdec]
    have hsegall : ((db ++ [eofb]).drop (r - 1)).take ((db ++ [eofb]).length - (r - 1))
        = (db ++ [eofb]).drop (r - 1) := by
      apply List.take_of_length_le
      simp only [List.length_drop]
      omega
    rw [hsegall]
    have hCPdrop : concatPayload ((db ++ [eofb]).drop (r - 1))
        = X.drop (sumPayload (db.take (r - 1))) := by
      rw [List.drop_append_of_le_length (by omega), concatPayload_append]
      have h1 : concatPayload [eofb] = [] := by simp [concatPayload, heof]
      rw [h1, List.append_nil, hXsplit]
      exact (List.drop_left' (concatPayload_length _)).symm
    rw [hCPdrop, pySlice_nonneg_one _ _ _ (by omega) (by omega)]
    have hbtr2 : (x - ((sumPayload (db.take (r - 1)) : Nat) : Int)) + btr
        - (x - ((sumPayload (db.take (r - 1)) : Nat) : Int)) = btr := by ring
    rw [hbtr2, List.drop_drop]
    have hidx1 : sumPayload (db.take (r - 1))
        + (x - ((sumPayload (db.take (r - 1)) : Nat) : Int)).toNat = x.toNat := by
      omega
    rw [hidx1, hjoin]

/-- The whole fetch tail (bound normalisation, region read, step slice) agrees
between BGZF and plain storage under the same hypotheses. -/
theorem bgzfFetchTail_eq_fetchTail (db : List BGZFBlock) (eofb : BGZFBlock)
    (X : List Char) (e : FaiEntry) (start? stop? : Option Int) (step : Int)
    (hX : X = concatPayload db)
    (heof : eofb.payload = [])
    (hpayle : ∀ b ∈ db, b.payload.length ≤ 65485)
    (hcs : ∀ b ∈ db ++ [eofb], 1 ≤ b.csize)
    (hn : 1 ≤ db.length)
    (hlb : 1 ≤ e.linebases) (hlw : e.linebases ≤ e.linewidth)
    (hoffg : e.linewidth - e.linebases + 2 ≤ e.offset)
    (hfit : e.offset + base_to_byte_offset (e.length + 1) e.linebases e.linewidth
      ≤ (X.length : Int) + 65536)
    (hLF : ∀ c ∈ X, pyIsLineBreak c = true → c = '\n') :
    bgzfFetchTail (db ++ [eofb]) (parseGzi (bgzfIndexEntries (db ++ [eofb])))
        e start? stop? step
      = fetchTail X e start? stop? step := by
  unfold bgzfFetchTail fetchTail
  cases hres : resolveRange e.length start? stop? step with
  | error err => rfl
  | ok res =>
    cases res with
    | empty => rfl
    | range lo hi =>
      obtain ⟨h1, h2, h3⟩ := resolveRange_range_inv e.length start? stop? step lo hi hres
      show (match bgzfReadRegion (db ++ [eofb])
              (parseGzi (bgzfIndexEntries (db ++ [eofb]))) e lo hi with
            | Except.error err => Except.error err
            | Except.ok sequence => pyStepSliceE sequence step)
          = (match readRegion X e lo hi with
            | Except.error err => Except.error err
            | Except.ok sequence => pyStepSliceE sequence step)
      rw [bgzfReadRegion_eq_plain db eofb X e lo hi hX heof hpayle hcs hn hlb hlw
        hoffg hfit h1 h2 h3 hLF]

/-! ### Helper lemmas: ordered-dictionary insertion -/

theorem lookupEntry_dictInsert (m : List FaiEntry) (v : FaiEntry) (n : String) :
    lookupEntry (dictInsert m v) n
      = if v.name = n then some v else lookupEntry m n := by
  induction m with
  | nil =>
    unfold dictInsert lookupEntry
    by_cases h : v.name = n
    · rw [if_pos h]
      simp [List.find?, beq_iff_eq.mpr h]
    · rw [if_neg h]
      simp [List.find?, beq_eq_false_iff_ne.mpr h]
  | cons e m ih =>
    unfold dictInsert
    by_cases he : e.name = v.name
    · rw [if_pos he]
      unfold lookupEntry
      by_cases h : v.name = n
      · rw [if_pos h]
        simp [List.find?, beq_iff_eq.mpr h]
      · have hne : ¬ e.name = n := by rw [he]; exact h
        rw [if_neg h]
        simp [List.find?, beq_eq_false_iff_ne.mpr h, beq_eq_false_iff_ne.mpr hne]
    · rw [if_neg he]
      unfold lookupEntry at ih ⊢
      by_cases hen : e.name = n
      · have hv : ¬ v.name = n := by
          intro hv
          exact he (by rw [hen, hv])
        rw [if_neg hv]
        simp [List.find?, beq_iff_eq.mpr hen]
      · simp only [List.find?, beq_eq_false_iff_ne.mpr hen]
        exact ih

theorem getLast?_cons_or (e : α) (l : List α) :
    (e :: l).getLast? = l.getLast?.or (some e) := by
  cases l with
  | nil => rfl
  | cons f fs =>
    rw [List.getLast?_cons_cons]
    cases hg : (f :: fs).getLast? with
    | none =>
      exfalso
      rw [List.getLast?_eq_none_iff] at hg
      exact List.cons_ne_nil f fs hg
    | some x => rfl

/-- The parser loop never rejects well-formed lines, and the mapping it
builds sends each name to the entry of that name's last line (dictionary
overwrite), falling back to the accumulator. -/
theorem parseFaiGo_lookup (lines : List (List Char)) (acc : List FaiEntry)
    (n : String) (hwf : ∀ l ∈ lines, (parseFaiLine l).isSome) :
    ∃ m, parseFaiGo lines acc = some m
      ∧ lookupEntry m n
        = (((lines.filterMap parseFaiLine).filter
            (fun e => e.name = n)).getLast?).or (lookupEntry acc n) := by
  induction lines generalizing acc with
  | nil => exact ⟨acc, rfl, by simp⟩
  | cons l ls ih =>
    have hl : (parseFaiLine l).isSome := hwf l (List.mem_cons_self l ls)
    obtain ⟨e, he⟩ := Option.isSome_iff_exists.mp hl
    have hws : ∀ x ∈ ls, (parseFaiLine x).isSome :=
      fun x hx => hwf x (List.mem_cons_of_mem l hx)
    obtain ⟨m, hm, hlook⟩ := ih (dictInsert acc e) hws
    refine ⟨m, ?_, ?_⟩
    · unfold parseFaiGo
      rw [he]
      exact hm
    · rw [hlook, lookupEntry_dictInsert]
      rw [List.filterMap_cons, he]
      by_cases hen : e.name = n
      · rw [if_pos hen]
        rw [List.filter_cons_of_pos (by simpa using hen), getLast?_cons_or,
          Option.or_assoc, Option.or_some]
      · rw [if_neg hen]
        rw [List.filter_cons_of_neg (by simpa using hen)]

/-! ### Helper lemmas: the FAI builder's per-line discipline -/

theorem processDataLine_first (st : RecState) (line r : List Char)
    (h1 : st.seq_linebases = none) (h2 : st.seq_linewidth = none) :
    processDataLine st line r = Except.ok { st with
      seq_len := st.seq_len + r.length,
      seq_linebases := some r.length,
      seq_linewidth := some line.length } := by
  unfold processDataLine
  rw [h1, h2]

theorem processDataLine_term_mismatch (st : RecState) (line r : List Char)
    (lb lw : Nat)
    (h1 : st.seq_linebases = some lb) (h2 : st.seq_linewidth = some lw)
    (hflag : st.encountered_unequal_linebases_before = false)
    (hw : line.length ≠ lw)
    (ht : line.length - r.length ≠ lw - lb) :
    processDataLine st line r = Except.error FetchErr.inconsistentTerminators := by
  unfold processDataLine
  rw [h1, h2]
  by_cases hr : r.length = lb
  · rw [hr] at ht
    simp [hr, hw, ht, hflag]
  · simp [hr, hw, ht, hflag]

/-! ### Claim theorems -/

/-- Claim C1 (code bug, evaluated at the failing input): on the
specification's plain FASTA file with its valid FAI, `fetch("seq1", -11, 2)`
returns `"1AC"` — the out-of-range negative start is clamped to the reverse
sentinel `-1`, so the read begins inside the header line and a header byte
leaks into the result — while the Python slice `"ACTGACTGAC"[-11:2]` the
claim promises is `"AC"`. -/
theorem C1_out_of_range_start_divergence :
    specFile.fetch "seq1" (some (-11)) (some 2) none = Except.ok (("1AC").toList)
    ∧ pySlice specSeq1 (some (-11)) (some 2) 1 = ("AC").toList := by
  refine ⟨by decide, by decide⟩

/-- Claim C2 (counterexample): on the CRLF-terminated FASTA `>s / AC / GT`
with its valid builder-produced FAI, the round trip BGZF-compress, GZI-build,
fetch returns `"AC\rGT\r"` — the compressed path strips only `"\n"` with
`split("\n")` — while the plain fetch on the uncompressed text returns
`"ACGT"` via `splitlines()`, so the two storages disagree. -/
theorem C2_counterexample :
    (mkBGZFFile crlfFASTA (some crlfEntries)).bind
        (fun f => f.fetch "s" none none none) = Except.ok (("AC\rGT\r").toList)
    ∧ crlfPlainFile.fetch "s" none none none = Except.ok (("ACGT").toList)
    ∧ (mkBGZFFile crlfFASTA (some crlfEntries)).bind
        (fun f => f.fetch "s" none none none)
      ≠ crlfPlainFile.fetch "s" none none none := by
  refine ⟨by decide, by decide, by decide⟩

/-- Claim C2 (amended): for FASTA text whose only line-boundary byte is
`"\n"`, with any FAI whose entries have valid geometry (`1 ≤ linebases ≤
linewidth`, a header before the first record so `linewidth - linebases + 2 ≤
offset`, and byte offsets that fit the file up to one block of slack), every
fetch through the BGZF compression of the text together with the GZI built
from the compressed blocks returns exactly what the same fetch returns on
the uncompressed text — including every error case. -/
theorem C2_bgzf_roundtrip_lf (X : List Char) (idx : List FaiEntry)
    (fB : FASTAFileBGZF)
    (hmk : mkBGZFFile X (some idx) = Except.ok fB)
    (hXne : X ≠ [])
    (hLF : ∀ c ∈ X, pyIsLineBreak c = true → c = '\n')
    (hgeom : ∀ e ∈ idx, 1 ≤ e.linebases ∧ e.linebases ≤ e.linewidth ∧
      e.linewidth - e.linebases + 2 ≤ e.offset ∧
      e.offset + base_to_byte_offset (e.length + 1) e.linebases e.linewidth
        ≤ (X.length : Int) + 65536)
    (seqid : String) (start? stop? step? : Option Int) :
    fB.fetch seqid start? stop? step?
      = ({ data := X, index := some idx, closed := false } : FASTAFilePlain).fetch
          seqid start? stop? step? := by
  unfold mkBGZFFile at hmk
  cases hcomp : bgzfCompress X with
  | error err =>
    rw [hcomp] at hmk
    simp at hmk
  | ok blocks =>
    rw [hcomp] at hmk
    have hmk2 : Except.ok (FASTAFileBGZF.mk blocks (some idx)
        (some (parseGzi (bgzfIndexEntries blocks))) false) = Except.ok fB := hmk
    injection hmk2 with hmk3
    subst hmk3
    unfold bgzfCompress at hcomp
    cases hsp : bgzfSplit X with
    | error err =>
      rw [hsp] at hcomp
      simp at hcomp
    | ok ps =>
      rw [hsp] at hcomp
      have hcomp2 : Except.ok (ps.map (fun p => BGZFBlock.mk (csizeModel p) p)
          ++ [BGZFBlock.mk (csizeModel []) []]) = Except.ok blocks := hcomp
      injection hcomp2 with hcomp3
      subst hcomp3
      obtain ⟨hflat, hprops⟩ := bgzfSplit_spec X ps hsp
      have hXcp : concatPayload (ps.map (fun p => BGZFBlock.mk (csizeModel p) p))
          = X := by
        unfold concatPayload
        rw [List.map_map]
        have hfn : ((fun b : BGZFBlock => b.payload)
            ∘ (fun p => BGZFBlock.mk (csizeModel p) p)) = (fun p : List Char => p) := rfl
        rw [hfn, List.map_id', hflat]
      have hpayle : ∀ b ∈ ps.map (fun p => BGZFBlock.mk (csizeModel p) p),
          b.payload.length ≤ 65485 := by
        intro b hb
        obtain ⟨p, hp, hbp⟩ := List.mem_map.mp hb
        subst hbp
        exact (hprops p hp).2
      have hcsfull : ∀ b ∈ ps.map (fun p => BGZFBlock.mk (csizeModel p) p)
          ++ [BGZFBlock.mk (csizeModel []) []], 1 ≤ b.csize := by
        intro b hb
        rcases List.mem_append.mp hb with hb1 | hb2
        · obtain ⟨p, hp, hbp⟩ := List.mem_map.mp hb1
          subst hbp
          show 1 ≤ csizeModel p
          unfold csizeModel
          omega
        · have hbe : b = BGZFBlock.mk (csizeModel []) [] := by simpa using hb2
          subst hbe
          show 1 ≤ csizeModel []
          unfold csizeModel
          omega
      have hnps : 1 ≤ (ps.map (fun p => BGZFBlock.mk (csizeModel p) p)).length := by
        rw [List.length_map]
        cases ps with
        | nil =>
          rw [← hflat] at hXne
          simp at hXne
        | cons a l => simp
      simp only [FASTAFileBGZF.fetch, FASTAFilePlain.fetch, Bool.false_eq_true,
        if_false]
      cases hlook : lookupEntry idx seqid with
      | none => rfl
      | some entry =>
        have hmem : entry ∈ idx := List.mem_of_find?_eq_some hlook
        obtain ⟨g1, g2, g3, g4⟩ := hgeom entry hmem
        exact bgzfFetchTail_eq_fetchTail _ _ X entry start? stop? (step?.getD 1)
          hXcp.symm rfl hpayle hcsfull hnps g1 g2 g3 g4 hLF

/-- Witness for the amended C2: the specification's six-line FASTA is
newline-terminated with valid geometry, `mkBGZFFile` compresses it into one
data block with the one-entry GZI, and a concrete stepped fetch agrees
between the two storages. -/
theorem C2_bgzf_roundtrip_lf_witness :
    specBGZF.fetch "seq1" (some (-3)) none (some 2)
      = ({ data := specFASTA, index := some specIndexEntries, closed := false } :
          FASTAFilePlain).fetch "seq1" (some (-3)) none (some 2) :=
  C2_bgzf_roundtrip_lf specFASTA specIndexEntries specBGZF (by decide) (by decide)
    (by decide) (by decide) "seq1" (some (-3)) none (some 2)

/-- Claim C3 (code bug, evaluated at the failing input): on the FASTA file
`>a / ACTG / >b / GG` — whose first record's length 4 is an exact multiple
of its linebases 4 — with the FAI its own builder produces, indexed
iteration mis-parses the second record's id as `""` (the start formula
overshoots the header by the terminator width), while unindexed iteration
yields `("b", "GG")`. -/
theorem C3_iter_indexed_exact_multiple_divergence :
    faiBuild exactMultipleFASTA
      = Except.ok [("a\t4\t3\t4\t5\n").toList, ("b\t2\t11\t2\t3\n").toList]
    ∧ parseFai [("a\t4\t3\t4\t5\n").toList, ("b\t2\t11\t2\t3\n").toList]
      = some exactMultipleEntries
    ∧ iterIndexed exactMultipleFASTA exactMultipleEntries
      = Except.ok [(("a").toList, ("ACTG").toList), ([], ("GG").toList)]
    ∧ iterUnindexed exactMultipleFASTA
      = Except.ok [(("a").toList, ("ACTG").toList), (("b").toList, ("GG").toList)] := by
  refine ⟨by decide, by decide, by decide, by decide⟩

/-- Claim C4: the FAI builder on the six-line FASTA text of the
specification produces exactly the two tab-separated index lines, in
order. -/
theorem C4_fai_builder_concrete :
    faiBuild specFASTA
      = Except.ok [("seq1\t10\t6\t4\t5\n").toList, ("seq2\t4\t25\t3\t4\n").toList] := by
  decide

/-- Claim C5 (code bug, evaluated at the failing input): `record[-1]`
computes `stop = -1 + 1 = 0`, so the fetch degenerates to an empty slice:
both the lazy and the materialized record return `""` instead of the last
base `'C'` of `"ACTGACTGAC"`. -/
theorem C5_record_minus_one_divergence :
    recordGetIntLazy specFile "seq1" (-1) = Except.ok []
    ∧ recordGetIntMaterialized specSeq1 (-1) = Except.ok []
    ∧ specSeq1.getD 9 ' ' = 'C' := by
  refine ⟨by decide, by decide, by decide⟩

/-- Claim C6 counterexample: on the specification's file,
`fetch("seq1", 8, 4, -2)` returns `"AT"`, but the claim's right-hand side
`fetch("seq1", 8, 4, 1)[::-2]` is `""[::-2] = ""` (the unit-step fetch with
the same bounds takes the forward-empty early return). -/
theorem C6_counterexample :
    specFile.fetch "seq1" (some 8) (some 4) (some (-2)) = Except.ok (("AT").toList)
    ∧ (specFile.fetch "seq1" (some 8) (some 4) (some 1)).map
        (fun t => pySlice t none none (-2)) = Except.ok []
    ∧ (Except.ok (("AT").toList) : Except FetchErr (List Char)) ≠ Except.ok [] := by
  refine ⟨by decide, by decide, by decide⟩

/-- Claim C6 (amended): for every non-zero step `s`,
`fetch(id, a, b, s)` equals the unit-step fetch of the same orientation —
`fetch(id, a, b, 1)` for positive `s`, `fetch(id, a, b, -1)` for negative
`s` — post-composed with the Python step slice `[::|s|]`; with the start and
stop defaults resolved by the step's sign as in the code. -/
theorem C6_step_decomposition (f : FASTAFilePlain) (seqid : String)
    (a b : Option Int) (s : Int) (hs : s ≠ 0) :
    f.fetch seqid a b (some s)
      = (f.fetch seqid a b (some (if 0 < s then 1 else -1))).map
          (fun t => pySlice t none none (if 0 < s then s else -s)) :=
  fetchPlain_step f seqid a b s hs

/-- Witness for `C6_step_decomposition` at `s = -2` on the specification's
file. -/
theorem C6_step_decomposition_witness :
    ((-2 : Int) ≠ 0)
    ∧ specFile.fetch "seq1" none none (some (-2))
        = (specFile.fetch "seq1" none none
            (some (if (0 : Int) < -2 then 1 else -1))).map
            (fun t => pySlice t none none (if (0 : Int) < -2 then -2 else -(-2))) :=
  ⟨by decide, C6_step_decomposition specFile "seq1" none none (-2) (by decide)⟩

/-- Claim C7: on an open uncompressed `FASTAFile`, for every indexed
sequence id whose FAI entry has valid geometry and every
`0 ≤ a ≤ b ≤ c ≤ length`, `fetch(id, a, b) ++ fetch(id, b, c)` equals
`fetch(id, a, c)`. -/
theorem C7_fetch_concatenation (f : FASTAFilePlain) (seqid : String)
    (idx : List FaiEntry) (e : FaiEntry) (a b c : Nat)
    (hclosed : f.closed = false) (hidx : f.index = some idx)
    (hent : lookupEntry idx seqid = some e)
    (hlb : 1 ≤ e.linebases) (hlw : e.linebases ≤ e.linewidth) (hoff : 0 ≤ e.offset)
    (hab : a ≤ b) (hbc : b ≤ c) (hcL : (c : Int) ≤ e.length) :
    (f.fetch seqid (some (a : Int)) (some (b : Int)) none).bind
        (fun x => (f.fetch seqid (some (b : Int)) (some (c : Int)) none).map
          (fun y => x ++ y))
      = f.fetch seqid (some (a : Int)) (some (c : Int)) none := by
  rw [fetch_eq_fetchTail f seqid idx e _ _ _ hclosed hidx hent,
    fetch_eq_fetchTail f seqid idx e _ _ _ hclosed hidx hent,
    fetch_eq_fetchTail f seqid idx e _ _ _ hclosed hidx hent]
  exact fetchTail_concat f.data e a b c hlb hlw hoff hab hbc hcL

/-- Claim C8 counterexample: an FAI stream with two lines sharing the name
`a` is not rejected — `_parse_index` builds an index, silently overwriting
the first entry with the second. -/
theorem C8_counterexample :
    parseFai [("a\t1\t0\t1\t2\n").toList, ("a\t2\t5\t1\t2\n").toList]
      = some [{ name := "a", length := 2, offset := 5,
                linebases := 1, linewidth := 2 }]
    ∧ (parseFai [("a\t1\t0\t1\t2\n").toList, ("a\t2\t5\t1\t2\n").toList]).isSome
        = true := by
  refine ⟨by decide, by decide⟩

/-- Claim C8 (amended): duplicate names are not rejected.  On any FAI input
whose lines all parse, `_parse_index` succeeds, and the resulting mapping
sends every name — duplicated or not — to the entry of its last line. -/
theorem C8_duplicate_names_last_wins (lines : List (List Char)) (n : String)
    (hwf : ∀ l ∈ lines, (parseFaiLine l).isSome) :
    ∃ m, parseFai lines = some m
      ∧ lookupEntry m n
        = ((lines.filterMap parseFaiLine).filter (fun e => e.name = n)).getLast? := by
  obtain ⟨m, hm, hlook⟩ := parseFaiGo_lookup lines [] n hwf
  refine ⟨m, hm, ?_⟩
  rw [hlook]
  show _ = ((lines.filterMap parseFaiLine).filter (fun e => e.name = n)).getLast?
  rw [show lookupEntry [] n = none from rfl, Option.or_none]

/-- Witness for `C8_duplicate_names_last_wins` on the duplicate-name input. -/
theorem C8_duplicate_names_last_wins_witness :
    (∀ l ∈ [("a\t1\t0\t1\t2\n").toList, ("a\t2\t5\t1\t2\n").toList],
      (parseFaiLine l).isSome)
    ∧ ∃ m, parseFai [("a\t1\t0\t1\t2\n").toList, ("a\t2\t5\t1\t2\n").toList] = some m
        ∧ lookupEntry m "a"
          = (([("a\t1\t0\t1\t2\n").toList,
              ("a\t2\t5\t1\t2\n").toList].filterMap parseFaiLine).filter
              (fun e => e.name = "a")).getLast? :=
  ⟨by decide,
   C8_duplicate_names_last_wins
     [("a\t1\t0\t1\t2\n").toList, ("a\t2\t5\t1\t2\n").toList] "a" (by decide)⟩

/-- Claim C9 counterexample: in the record `>s / ACTG / ACT\r\n`, the third
line's terminator width is 2 while the established width is 1, and its
total byte width equals the established linewidth 5 — yet the builder
succeeds (the deviation is absorbed by the once-tolerated linebases branch)
instead of failing with the inconsistent-terminators error. -/
theorem C9_counterexample :
    faiBuild ((">s\nACTG\nACT\r\n").toList) = Except.ok [("s\t7\t3\t4\t5\n").toList]
    ∧ faiBuild ((">s\nACTG\nACT\r\n").toList)
        ≠ Except.error FetchErr.inconsistentTerminators := by
  refine ⟨by decide, by decide⟩

/-- Claim C9 (amended): the builder fails immediately with the
inconsistent-terminators error when a data line's total byte width differs
from the established linewidth AND its terminator width differs from the
established terminator width; a deviating line whose total width equals the
established linewidth is not checked for terminator consistency.  Stated
for a record's second data line (the first establishes the geometry),
independently of any following input. -/
theorem C9_terminator_mismatch_scope (h l1 l2 : List Char)
    (rest : List (List Char))
    (hh1 : pyRstrip h ≠ []) (hh2 : startsWithGt h = true)
    (h11 : pyRstrip l1 ≠ []) (h12 : startsWithGt l1 = false)
    (h21 : pyRstrip l2 ≠ []) (h22 : startsWithGt l2 = false)
    (hw : l2.length ≠ l1.length)
    (ht : l2.length - (pyRstrip l2).length ≠ l1.length - (pyRstrip l1).length) :
    faiIndexGo (h :: l1 :: l2 :: rest) 0 none false
      = Except.error FetchErr.inconsistentTerminators := by
  have hgt2 : ¬ startsWithGt l2 = true := by rw [h22]; exact Bool.false_ne_true
  have hgt1 : ¬ startsWithGt l1 = true := by rw [h12]; exact Bool.false_ne_true
  have step2 : ∀ (off : Nat) (sid : List Char) (sl soff : Nat),
      faiIndexGo (l2 :: rest) off
        (some ⟨sid, sl, soff, some (pyRstrip l1).length, some l1.length,
          false, false⟩) false
      = Except.error FetchErr.inconsistentTerminators := by
    intro off sid sl soff
    simp only [faiIndexGo, Bool.false_eq_true, if_false]
    rw [if_neg h21, if_neg hgt2,
      processDataLine_term_mismatch _ l2 (pyRstrip l2)
        (pyRstrip l1).length l1.length rfl rfl rfl hw ht]
  have step1 : ∀ (off : Nat) (sid : List Char) (soff : Nat),
      faiIndexGo (l1 :: l2 :: rest) off
        (some ⟨sid, 0, soff, none, none, false, false⟩) false
      = Except.error FetchErr.inconsistentTerminators := by
    intro off sid soff
    obtain ⟨T, hT⟩ : ∃ T, l2 :: rest = T := ⟨_, rfl⟩
    rw [hT]
    simp only [faiIndexGo, Bool.false_eq_true, if_false]
    rw [if_neg h11, if_neg hgt1,
      processDataLine_first _ l1 (pyRstrip l1) rfl rfl, ← hT]
    exact step2 (off + l1.length) sid (0 + (pyRstrip l1).length) soff
  obtain ⟨S, hS⟩ : ∃ S, l1 :: l2 :: rest = S := ⟨_, rfl⟩
  rw [hS]
  simp only [faiIndexGo, Bool.false_eq_true, if_false]
  rw [if_neg hh1, if_pos hh2, ← hS,
    step1 (0 + h.length) ((((pyRstrip h).splitOn ' ').headD []).drop 1)
      (0 + h.length)]

/-- Witness for `C9_terminator_mismatch_scope` on the record
`>s / ACTG\n / AC\r\n` (width 4 ≠ 5, terminator width 2 ≠ 1). -/
theorem C9_terminator_mismatch_scope_witness :
    (pyRstrip ((">s\n").toList) ≠ [] ∧ startsWithGt ((">s\n").toList) = true
      ∧ pyRstrip (("ACTG\n").toList) ≠ []
      ∧ startsWithGt (("ACTG\n").toList) = false
      ∧ pyRstrip (("AC\r\n").toList) ≠ []
      ∧ startsWithGt (("AC\r\n").toList) = false
      ∧ (("AC\r\n").toList).length ≠ (("ACTG\n").toList).length
      ∧ (("AC\r\n").toList).length - (pyRstrip (("AC\r\n").toList)).length
        ≠ (("ACTG\n").toList).length - (pyRstrip (("ACTG\n").toList)).length)
    ∧ faiIndexGo [(">s\n").toList, ("ACTG\n").toList, ("AC\r\n").toList] 0 none false
      = Except.error FetchErr.inconsistentTerminators :=
  ⟨by decide,
   C9_terminator_mismatch_scope ((">s\n").toList) (("ACTG\n").toList)
     (("AC\r\n").toList) [] (by decide) (by decide) (by decide) (by decide)
     (by decide) (by decide) (by decide) (by decide)⟩

/-- Claim C10: after `close()`, `file[seqid]` still returns a lazy record
and `seqid in file` still answers from the in-memory index — neither
touches the backing stream — while `_fetch` (used by slicing, integer
indexing, and sequence materialization) raises the closed error first. -/
theorem C10_closed_file_lazy_access (f : FASTAFilePlain) (idx : List FaiEntry)
    (key : String)
    (hclosed : f.closed = true) (hidx : f.index = some idx)
    (hkey : (lookupEntry idx key).isSome = true) :
    f.getRecord key = Except.ok (RecordHandle.lazy key)
    ∧ f.containsSeqid key = Except.ok true
    ∧ (∀ k2 : String, f.containsSeqid k2 = Except.ok (lookupEntry idx k2).isSome)
    ∧ (∀ a b s : Option Int, f.fetch key a b s = Except.error FetchErr.closedValue) := by
  refine ⟨?_, ?_, ?_, ?_⟩
  · unfold FASTAFilePlain.getRecord
    rw [hidx]
    show (if (lookupEntry idx key).isSome = true then Except.ok (RecordHandle.lazy key)
          else Except.error FetchErr.keyError) = _
    rw [if_pos hkey]
  · unfold FASTAFilePlain.containsSeqid
    rw [hidx]
    show Except.ok (lookupEntry idx key).isSome = Except.ok true
    rw [hkey]
  · intro k2
    unfold FASTAFilePlain.containsSeqid
    rw [hidx]
  · intro a b s
    unfold FASTAFilePlain.fetch
    rw [if_pos hclosed]

/-- Witness for `C10_closed_file_lazy_access` on the closed specification
file with `seqid = "seq1"`. -/
theorem C10_closed_file_lazy_access_witness :
    (specFileClosed.closed = true
      ∧ specFileClosed.index = some specIndexEntries
      ∧ (lookupEntry specIndexEntries "seq1").isSome = true)
    ∧ specFileClosed.getRecord "seq1" = Except.ok (RecordHandle.lazy "seq1")
    ∧ specFileClosed.containsSeqid "seq1" = Except.ok true
    ∧ specFileClosed.containsSeqid "seqN"
        = Except.ok (lookupEntry specIndexEntries "seqN").isSome
    ∧ specFileClosed.fetch "seq1" none none none
        = Except.error FetchErr.closedValue :=
  ⟨⟨by decide, by decide, by decide⟩,
   (C10_closed_file_lazy_access specFileClosed specIndexEntries "seq1"
     (by decide) (by decide) (by decide)).1,
   (C10_closed_file_lazy_access specFileClosed specIndexEntries "seq1"
     (by decide) (by decide) (by decide)).2.1,
   (C10_closed_file_lazy_access specFileClosed specIndexEntries "seq1"
     (by decide) (by decide) (by decide)).2.2.1 "seqN",
   (C10_closed_file_lazy_access specFileClosed specIndexEntries "seq1"
     (by decide) (by decide) (by decide)).2.2.2 none none none⟩

/-- Witness for `C7_fetch_concatenation` with `a, b, c = 1, 3, 7` on the
specification's file. -/
theorem C7_fetch_concatenation_witness :
    (specFile.closed = false
      ∧ specFile.index = some specIndexEntries
      ∧ lookupEntry specIndexEntries "seq1"
          = some { name := "seq1", length := 10, offset := 6,
                   linebases := 4, linewidth := 5 }
      ∧ (1 : Int) ≤ 4 ∧ (4 : Int) ≤ 5 ∧ (0 : Int) ≤ 6
      ∧ (1 : Nat) ≤ 3 ∧ (3 : Nat) ≤ 7 ∧ ((7 : Nat) : Int) ≤ 10)
    ∧ (specFile.fetch "seq1" (some ((1 : Nat) : Int)) (some ((3 : Nat) : Int)) none).bind
        (fun x => (specFile.fetch "seq1" (some ((3 : Nat) : Int))
            (some ((7 : Nat) : Int)) none).map (fun y => x ++ y))
      = specFile.fetch "seq1" (some ((1 : Nat) : Int)) (some ((7 : Nat) : Int)) none :=
  ⟨by decide,
   C7_fetch_concatenation specFile "seq1" specIndexEntries
     { name := "seq1", length := 10, offset := 6, linebases := 4, linewidth := 5 }
     1 3 7 (by decide) (by decide) (by decide) (by decide) (by decide) (by decide)
     (by decide) (by decide) (by decide)⟩

end Fastah
